import Mathlib

/-!
# Verification of `scripts/prepare_nightly_release.py`

A shallow embedding of the Rasa nightly-release preparation script.  The
script parses a PEP 440 version string (`packaging.version.Version`, via
`pep440_version_utils`), overwrites `rasa/version.py`, rewrites
`pyproject.toml` through `toml.load` / `toml.dump`, checks the current git
branch against an allow-list, and tags/pushes the commit.

The embedding has three layers:

* a model of the PEP 440 version grammar (`parseVersionChars`,
  `renderChars`), faithful to `packaging.version.VERSION_PATTERN` and to
  `Version.__str__` (ASCII inputs; the regex is applied case-insensitively
  with surrounding whitespace allowed, which we model by lower-casing and
  stripping the input first);
* a model of the `toml` library (`tomlLoad`, `tomlDump`) on the TOML
  subset exercised by a pyproject manifest: comment lines, `[a.b]` table
  headers, and `key = value` lines with string / integer / boolean values;
  `tomlDump` follows `toml.TomlEncoder`: scalars of a table first, then
  subsections breadth-first, arrays containing tables emitted as
  `[[section]]` arrays-of-tables;
* a model of the script itself (`write_version_file`,
  `write_version_to_pyproject`, `git_current_branch`,
  `git_current_branch_is_main`, `main`) as a function on a `World` record
  holding the two files, the git branch, and the tag state.
-/

set_option maxHeartbeats 1000000

namespace Rasa

/-! ## Character classes (ASCII, as used by the version regex) -/

/-- The characters matched by `[0-9]` in the version regex
(code points 48-57). -/
def isDigitChar (c : Char) : Bool :=
  48 ≤ c.toNat && c.toNat ≤ 57

/-- Lower-case ASCII letters (code points 97-122). -/
def isLowerAlpha (c : Char) : Bool :=
  97 ≤ c.toNat && c.toNat ≤ 122

/-- The characters matched by `[a-z0-9]` (after lower-casing): the
alphabet of local version segments. -/
def isLocalChar (c : Char) : Bool :=
  isDigitChar c || isLowerAlpha c

/-- ASCII whitespace, as matched by `\s` around the version pattern:
tab through carriage return (code points 9-13) and the space. -/
def isPySpace (c : Char) : Bool :=
  (9 ≤ c.toNat && c.toNat ≤ 13) || c.toNat == 32

/-- The separator characters `[-_.]` allowed between version components. -/
def isSepChar (c : Char) : Bool :=
  c == '-' || c == '_' || c == '.'

/-- ASCII lower-casing, as applied by `re.IGNORECASE` / `str.lower`. -/
def lowerChar (c : Char) : Char :=
  if 65 ≤ c.toNat ∧ c.toNat ≤ 90 then Char.ofNat (c.toNat + 32) else c

/-! ## Decimal digit strings -/

/-- The decimal digit for a value `< 10` (the clause for `9` is a
catch-all to keep the function total). -/
def digitChar : Nat → Char
  | 0 => '0' | 1 => '1' | 2 => '2' | 3 => '3' | 4 => '4'
  | 5 => '5' | 6 => '6' | 7 => '7' | 8 => '8' | _ => '9'

/-- Numeric value of a digit character. -/
def charVal (c : Char) : Nat := c.toNat - 48

/-- Decimal rendering of `n`, most significant digit first; `fuel`
bounds the recursion (`n ≤ fuel` suffices). -/
def natCharsAux : Nat → Nat → List Char
  | 0, _ => []
  | _ + 1, 0 => []
  | fuel + 1, n + 1 =>
    natCharsAux fuel ((n + 1) / 10) ++ [digitChar ((n + 1) % 10)]

/-- Decimal rendering of a natural number, e.g. `natChars 204 = ['2','0','4']`.
Models `str(int)`. -/
def natChars (n : Nat) : List Char :=
  if n = 0 then ['0'] else natCharsAux n n

/-- Value of a digit string (most significant first), accumulator form;
models `int(str)` on a digit string (leading zeros allowed). -/
def digitsToNatAux : List Char → Nat → Nat
  | [], acc => acc
  | c :: cs, acc => digitsToNatAux cs (acc * 10 + charVal c)

/-- Value of a digit string. -/
def digitsToNat (cs : List Char) : Nat := digitsToNatAux cs 0


/-! ## The PEP 440 version grammar

Faithful to `packaging.version.VERSION_PATTERN`, applied by
`Version.__init__` as `^\s*` + pattern + `\s*$` with `re.IGNORECASE`:

    v?
    (?:(?P<epoch>[0-9]+)!)?
    (?P<release>[0-9]+(?:\.[0-9]+)*)
    (?:[-_\.]?(?P<pre_l>(a|b|c|rc|alpha|beta|pre|preview))[-_\.]?(?P<pre_n>[0-9]+)?)?
    (?:(?:-(?P<post_n1>[0-9]+))|(?:[-_\.]?(?P<post_l>post|rev|r)[-_\.]?(?P<post_n2>[0-9]+)?))?
    (?:[-_\.]?(?P<dev_l>dev)[-_\.]?(?P<dev_n>[0-9]+)?)?
    (?:\+(?P<local>[a-z0-9]+(?:[-_\.][a-z0-9]+)*))?

The parser below is greedy at each component, like the regex, and tries
keyword alternatives longest first (backtracking in the regex makes its
leftmost-alternative order equivalent to longest-first here, since the
whole string must be consumed). -/

/-- One segment of a local version: `_parse_local_version` turns each
part into `int(part)` when it is all digits, else the (lower-cased)
string. -/
inductive LocalSeg where
  | num (n : Nat)
  | alpha (cs : List Char)
deriving DecidableEq

/-- The parsed pieces stored by `Version.__init__` (the `_Version`
namedtuple), after normalization by `_parse_letter_version` /
`_parse_local_version`.  `pre` holds the canonical letter (`a`, `b` or
`rc`) and number; `post` and `dev` hold just the number. -/
structure PyVersion where
  epoch : Nat
  release : List Nat
  pre : Option (List Char × Nat)
  post : Option Nat
  dev : Option Nat
  localSegs : List LocalSeg
deriving DecidableEq

/-- Split the longest leading run of decimal digits. -/
def takeDigits : List Char → List Char × List Char
  | [] => ([], [])
  | c :: cs =>
    if isDigitChar c then
      let p := takeDigits cs
      (c :: p.1, p.2)
    else ([], c :: cs)

/-- Split the longest leading run of `[a-z0-9]` characters. -/
def takeLoc : List Char → List Char × List Char
  | [] => ([], [])
  | c :: cs =>
    if isLocalChar c then
      let p := takeLoc cs
      (c :: p.1, p.2)
    else ([], c :: cs)

/-- Drop a single leading separator `[-_.]`, if present (the optional
separator before/after a keyword; the regex consumes it greedily). -/
def dropSep1 (cs : List Char) : List Char :=
  match cs with
  | c :: rest => if isSepChar c then rest else cs
  | [] => []

/-- Match a literal keyword at the head of the input. -/
def stripKw : List Char → List Char → Option (List Char)
  | [], cs => some cs
  | _ :: _, [] => none
  | k :: ks, c :: cs => if c == k then stripKw ks cs else none

/-- Try each keyword in order, returning the matched keyword and the rest. -/
def matchKw : List (List Char) → List Char → Option (List Char × List Char)
  | [], _ => none
  | kw :: kws, cs =>
    match stripKw kw cs with
    | some rest => some (kw, rest)
    | none => matchKw kws cs

/-- Pre-release spellings `a|b|c|rc|alpha|beta|pre|preview`, longest first. -/
def preKeywords : List (List Char) :=
  [['p','r','e','v','i','e','w'], ['a','l','p','h','a'], ['b','e','t','a'],
   ['p','r','e'], ['r','c'], ['a'], ['b'], ['c']]

/-- Post-release spellings `post|rev|r`, longest first. -/
def postKeywords : List (List Char) :=
  [['p','o','s','t'], ['r','e','v'], ['r']]

/-- `_parse_letter_version`'s spelling normalization for pre-releases:
`alpha → a`, `beta → b`, `c/pre/preview → rc`. -/
def canonPre (kw : List Char) : List Char :=
  if kw = ['a'] ∨ kw = ['a','l','p','h','a'] then ['a']
  else if kw = ['b'] ∨ kw = ['b','e','t','a'] then ['b']
  else ['r','c']

/-- Drop the optional leading `v`. -/
def dropV (cs : List Char) : List Char :=
  match cs with
  | c :: rest => if c == 'v' then rest else cs
  | [] => []

/-- Parse `(?:([0-9]+)!)?`: digits followed by `!`, else nothing. -/
def parseEpoch (cs : List Char) : Nat × List Char :=
  match takeDigits cs with
  | ([], _) => (0, cs)
  | (ds, rest) =>
    match rest with
    | c :: rest2 => if c == '!' then (digitsToNat ds, rest2) else (0, cs)
    | [] => (0, cs)

/-- Parse the `(?:\.[0-9]+)*` tail of the release segment; `fuel` bounds
the number of components (the input length suffices). -/
def parseRelMore : Nat → List Char → List Nat × List Char
  | 0, cs => ([], cs)
  | fuel + 1, cs =>
    match cs with
    | c :: rest =>
      if c == '.' then
        match takeDigits rest with
        | ([], _) => ([], cs)
        | (ds, rest2) =>
          let p := parseRelMore fuel rest2
          (digitsToNat ds :: p.1, p.2)
      else ([], cs)
    | [] => ([], cs)

/-- Parse the mandatory release segment `[0-9]+(?:\.[0-9]+)*`. -/
def parseRelease (cs : List Char) : Option (List Nat × List Char) :=
  match takeDigits cs with
  | ([], _) => none
  | (ds, rest) =>
    let p := parseRelMore rest.length rest
    some (digitsToNat ds :: p.1, p.2)

/-- Parse the optional pre-release group: optional separator, spelling,
optional separator, optional number (0 when absent); returns the input
unchanged when no spelling matches. -/
def parsePre (cs : List Char) : Option (List Char × Nat) × List Char :=
  match matchKw preKeywords (dropSep1 cs) with
  | none => (none, cs)
  | some (kw, rest) =>
    let rest2 := dropSep1 rest
    match takeDigits rest2 with
    | ([], _) => (some (canonPre kw, 0), rest2)
    | (ds, rest3) => (some (canonPre kw, digitsToNat ds), rest3)

/-- The keyword form of the post-release group (second regex alternative). -/
def parsePostKw (cs : List Char) : Option Nat × List Char :=
  match matchKw postKeywords (dropSep1 cs) with
  | none => (none, cs)
  | some (_, rest) =>
    let rest2 := dropSep1 rest
    match takeDigits rest2 with
    | ([], _) => (some 0, rest2)
    | (ds, rest3) => (some (digitsToNat ds), rest3)

/-- Parse the optional post-release group: either `-[0-9]+` (implicit
post, tried first as in the regex) or separator/spelling/number. -/
def parsePost (cs : List Char) : Option Nat × List Char :=
  match cs with
  | c :: rest =>
    if c == '-' then
      match takeDigits rest with
      | ([], _) => parsePostKw cs
      | (ds, rest2) => (some (digitsToNat ds), rest2)
    else parsePostKw cs
  | [] => parsePostKw []

/-- Parse the optional dev-release group `[-_\.]?dev[-_\.]?[0-9]+?`. -/
def parseDev (cs : List Char) : Option Nat × List Char :=
  match matchKw [['d','e','v']] (dropSep1 cs) with
  | none => (none, cs)
  | some (_, rest) =>
    let rest2 := dropSep1 rest
    match takeDigits rest2 with
    | ([], _) => (some 0, rest2)
    | (ds, rest3) => (some (digitsToNat ds), rest3)

/-- `_parse_local_version` on one raw segment: an all-digit segment
becomes a number, anything else stays a string. -/
def classifySeg (ds : List Char) : LocalSeg :=
  if ds.all isDigitChar then .num (digitsToNat ds) else .alpha ds

/-- Parse the `(?:[-_\.][a-z0-9]+)*` tail of a local version; the whole
rest of the input must be consumed (the regex is anchored at `$`). -/
def parseSegsMore : Nat → List Char → Option (List LocalSeg)
  | _, [] => some []
  | 0, _ :: _ => none
  | fuel + 1, c :: rest =>
    if isSepChar c then
      match takeLoc rest with
      | ([], _) => none
      | (seg, rest2) => (parseSegsMore fuel rest2).map (classifySeg seg :: ·)
    else none

/-- Parse a whole local version `[a-z0-9]+(?:[-_\.][a-z0-9]+)*`,
consuming the entire input. -/
def parseSegs (cs : List Char) : Option (List LocalSeg) :=
  match takeLoc cs with
  | ([], _) => none
  | (seg, rest) => (parseSegsMore rest.length rest).map (classifySeg seg :: ·)

/-- Parse the optional `+local` suffix; anything left over after it
makes the whole version invalid. -/
def parseLocal (cs : List Char) : Option (List LocalSeg) :=
  match cs with
  | [] => some []
  | c :: rest => if c == '+' then parseSegs rest else none

/-- The whole version grammar on a lower-cased, whitespace-stripped
character list.  Mirrors `Version.__init__`: `None` (here `none`) is
`InvalidVersion`. -/
def parseVersionChars (cs : List Char) : Option PyVersion :=
  let cs1 := dropV cs
  let ec := parseEpoch cs1
  match parseRelease ec.2 with
  | none => none
  | some (rel, cs2) =>
    let pr := parsePre cs2
    let po := parsePost pr.2
    let dv := parseDev po.2
    match parseLocal dv.2 with
    | none => none
    | some segs => some ⟨ec.1, rel, pr.1, po.1, dv.1, segs⟩

/-- Strip surrounding ASCII whitespace and lower-case, modelling the
`^\s* … \s*$` anchors and `re.IGNORECASE` (plus the lower-casing done by
`_parse_letter_version` / `_parse_local_version`). -/
def canonChars (s : String) : List Char :=
  ((((s.data.dropWhile isPySpace).reverse).dropWhile isPySpace).reverse).map lowerChar

/-- `parse_next_version(version)`: `Version(version)` from
`pep440_version_utils` (a subclass of `packaging.version.Version` with
an unchanged constructor); `none` models the `InvalidVersion` exception. -/
def parse_next_version (version : String) : Option PyVersion :=
  parseVersionChars (canonChars version)

/-! ## Rendering (`Version.__str__`) -/

/-- `".".join` tail: a dot before each further release component. -/
def dotsTail : List Nat → List Char
  | [] => []
  | n :: rs => '.' :: natChars n ++ dotsTail rs

/-- The release segment, components joined with dots. -/
def renderRelease : List Nat → List Char
  | [] => []
  | n :: rs => natChars n ++ dotsTail rs

/-- One local segment, as `str(x)`. -/
def renderSeg : LocalSeg → List Char
  | .num n => natChars n
  | .alpha cs => cs

/-- `".".join` tail for local segments. -/
def dotsSegTail : List LocalSeg → List Char
  | [] => []
  | s :: ss => '.' :: renderSeg s ++ dotsSegTail ss

/-- The `+local` suffix (empty when there is no local version). -/
def renderLocal : List LocalSeg → List Char
  | [] => []
  | s :: ss => '+' :: (renderSeg s ++ dotsSegTail ss)

/-- The epoch part of `Version.__str__`: `N!` when nonzero, nothing
otherwise. -/
def renderEpoch (e : Nat) : List Char :=
  if e = 0 then [] else natChars e ++ ['!']

/-- The pre-release part: canonical letter directly followed by the
number, e.g. `a7`, `rc0`. -/
def renderPre : Option (List Char × Nat) → List Char
  | none => []
  | some (l, n) => l ++ natChars n

/-- The post-release part: `.postN`. -/
def renderPost : Option Nat → List Char
  | none => []
  | some n => '.' :: 'p' :: 'o' :: 's' :: 't' :: natChars n

/-- The dev-release part: `.devN`. -/
def renderDev : Option Nat → List Char
  | none => []
  | some n => '.' :: 'd' :: 'e' :: 'v' :: natChars n

/-- The character list produced by `Version.__str__`: epoch (when
nonzero), release, pre (letter directly followed by number), `.postN`,
`.devN`, `+local`. -/
def renderChars (v : PyVersion) : List Char :=
  renderEpoch v.epoch
  ++ (renderRelease v.release
  ++ (renderPre v.pre
  ++ (renderPost v.post
  ++ (renderDev v.dev
  ++ renderLocal v.localSegs))))

/-- `str(version)`. -/
def render_version (v : PyVersion) : String := ⟨renderChars v⟩

/-! ## A model of the `toml` library (uiri/toml 0.10)

`toml.load` parses a TOML document into nested dictionaries; `toml.dump`
serializes nested dictionaries back to TOML text.  The loader below
covers the TOML subset a pyproject manifest uses — blank lines, `#`
comment lines, bare-key `[a.b]` table headers, and `key = value` lines
with basic-string / integer / boolean / empty-array values — and rejects
(returns `none`, modelling `TomlDecodeError`) anything else.  Comments
and formatting are discarded by parsing, exactly as in the library: the
parsed value is only the dictionary tree. -/

/-- The parsed TOML data: what `toml.load` returns (nested python dicts,
lists and scalars).  Dictionaries are association lists in insertion
order, as python dicts preserve insertion order. -/
inductive Toml where
  | str (s : String)
  | int (n : Int)
  | bool (b : Bool)
  | arr (xs : List Toml)
  | table (kvs : List (String × Toml))

/-- Dictionary lookup `d[k]` (as a total function). -/
def lookupKey : List (String × Toml) → String → Option Toml
  | [], _ => none
  | (k', v) :: rest, k => if k' == k then some v else lookupKey rest k

/-- Dictionary assignment `d[k] = v`: replaces in place, or appends a
new key at the end (python dicts preserve insertion order). -/
def setKey : List (String × Toml) → String → Toml → List (String × Toml)
  | [], k, v => [(k, v)]
  | (k', v') :: rest, k, v =>
    if k' == k then (k', v) :: rest else (k', v') :: setKey rest k v

/-- TOML inline whitespace. -/
def isTomlSpace (c : Char) : Bool := c == ' ' || c == '\t'

/-- Trim inline whitespace from both ends of a line. -/
def trimChars (cs : List Char) : List Char :=
  ((cs.dropWhile isTomlSpace).reverse.dropWhile isTomlSpace).reverse

/-- Characters allowed in a bare TOML key, `[A-Za-z0-9_-]`. -/
def isBareKeyChar (c : Char) : Bool :=
  c.isAlpha || c.isDigit || c == '_' || c == '-'

/-- Split a character list at the first `\n`. -/
def splitLinesAux : List Char → List Char → List (List Char)
  | [], acc => [acc.reverse]
  | c :: cs, acc =>
    if c == '\n' then acc.reverse :: splitLinesAux cs []
    else splitLinesAux cs (c :: acc)

/-- The lines of a document. -/
def splitLines (cs : List Char) : List (List Char) := splitLinesAux cs []

/-- Take characters up to (and consuming) the first occurrence of
`target`; `none` when `target` does not occur. -/
def spanUntil (target : Char) : List Char → Option (List Char × List Char)
  | [] => none
  | c :: cs =>
    if c == target then some ([], cs)
    else (spanUntil target cs).map (fun p => (c :: p.1, p.2))

/-- Split on `.` (for dotted table headers). -/
def splitDotsAux : List Char → List Char → List (List Char)
  | [], acc => [acc.reverse]
  | c :: cs, acc =>
    if c == '.' then acc.reverse :: splitDotsAux cs []
    else splitDotsAux cs (c :: acc)

/-- The dot-separated components of a table-header name. -/
def splitDots (cs : List Char) : List (List Char) := splitDotsAux cs []

/-- Parse a value: a basic string (without escapes — the model's
subset), an integer, a boolean, or an empty array. -/
def parseTomlValue (cs : List Char) : Option Toml :=
  match cs with
  | [] => none
  | c :: rest =>
    if c == '"' then
      match rest.getLast? with
      | some q =>
        if q == '"' ∧ (rest.dropLast).all (fun ch => ch != '"' && ch != '\\') then
          some (.str ⟨rest.dropLast⟩)
        else none
      | none => none
    else if cs = ['t','r','u','e'] then some (.bool true)
    else if cs = ['f','a','l','s','e'] then some (.bool false)
    else if cs ≠ [] ∧ cs.all isDigitChar then some (.int (digitsToNat cs))
    else if c == '-' ∧ rest ≠ [] ∧ rest.all isDigitChar then
      some (.int (-(digitsToNat rest : Int)))
    else if c == '[' ∧ trimChars rest = [']'] then some (.arr [])
    else none

/-- A bare key (nonempty, `[A-Za-z0-9_-]+`). -/
def bareKey (cs : List Char) : Option String :=
  if cs ≠ [] ∧ cs.all isBareKeyChar then some ⟨cs⟩ else none

/-- Parse a `[a.b]` table-header line (already trimmed, starting with
`[`); quoted keys and `[[array.of.tables]]` headers are outside the
model's subset. -/
def parseHeaderPath (t : List Char) : Option (List String) :=
  match t with
  | '[' :: rest =>
    match rest with
    | '[' :: _ => none
    | _ =>
      match spanUntil ']' rest with
      | none => none
      | some (inner, after) =>
        let afterT := trimChars after
        if afterT = [] ∨ afterT.head? = some '#' then
          let parts := (splitDots inner).map trimChars
          (parts.mapM bareKey)
        else none
  | _ => none

/-- Parse a `key = value` line (already trimmed). -/
def parseKeyValue (t : List Char) : Option (String × Toml) :=
  match spanUntil '=' t with
  | none => none
  | some (l, r) =>
    match bareKey (trimChars l) with
    | none => none
    | some k =>
      match parseTomlValue (trimChars r) with
      | none => none
      | some v => some (k, v)

/-- Insert `k = v` under the table `path`, creating intermediate tables;
fails on a duplicate key or on descending into a non-table. -/
def insertAt (kvs : List (String × Toml)) : List String → String → Toml →
    Option (List (String × Toml))
  | [], k, v =>
    match lookupKey kvs k with
    | some _ => none
    | none => some (kvs ++ [(k, v)])
  | p :: ps, k, v =>
    match lookupKey kvs p with
    | none => (insertAt [] ps k v).map (fun sub => kvs ++ [(p, .table sub)])
    | some (.table sub) => (insertAt sub ps k v).map (fun sub' => setKey kvs p (.table sub'))
    | some _ => none

/-- Declare a `[path]` table header, creating intermediate tables; fails
when the full path already exists (duplicate table) or crosses a
non-table value. -/
def declTable (kvs : List (String × Toml)) : List String →
    Option (List (String × Toml))
  | [] => some kvs
  | [p] =>
    match lookupKey kvs p with
    | some _ => none
    | none => some (kvs ++ [(p, .table [])])
  | p :: ps =>
    match lookupKey kvs p with
    | none => (declTable [] ps).map (fun sub => kvs ++ [(p, .table sub)])
    | some (.table sub) => (declTable sub ps).map (fun sub' => setKey kvs p (.table sub'))
    | some _ => none

/-- Process the lines of a document, tracking the current table path. -/
def tomlLoadAux : List (List Char) → List (String × Toml) → List String →
    Option (List (String × Toml))
  | [], root, _ => some root
  | line :: rest, root, path =>
    match trimChars line with
    | [] => tomlLoadAux rest root path
    | c :: t =>
      if c == '#' then tomlLoadAux rest root path
      else if c == '[' then
        match parseHeaderPath (c :: t) with
        | none => none
        | some newPath =>
          match declTable root newPath with
          | none => none
          | some root' => tomlLoadAux rest root' newPath
      else
        match parseKeyValue (c :: t) with
        | none => none
        | some (k, v) =>
          match insertAt root path k v with
          | none => none
          | some root' => tomlLoadAux rest root' path

/-- `toml.load`: parse a document into its dictionary tree; `none`
models `TomlDecodeError`. -/
def tomlLoad (content : String) : Option (List (String × Toml)) :=
  tomlLoadAux (splitLines content.data) [] []

/-! ### `toml.dump`

`toml.dumps` renders the top-level table's non-dict entries first, then
walks dict-valued entries breadth-first, emitting a `[full.name]` header
(preceded by a blank line, and skipped when the table holds only
sub-tables) followed by that table's non-dict entries.  An array with a
dict element is emitted as a `[[full.name]]` array-of-tables.  The model
follows `TomlEncoder.dump_sections` / `toml.dumps`; recursion is bounded
by fuel (callers pass a size bound).  Exact blank-line placement inside
array-of-tables bodies is normalized slightly; nothing below depends on
it. -/

/-- `_dump_str`'s escaping, restricted to the characters our data can
contain: backslash and double quote. -/
def escapeStrChars : List Char → List Char
  | [] => []
  | c :: cs =>
    (if c == '\\' then ['\\', '\\']
     else if c == '"' then ['\\', '"'] else [c]) ++ escapeStrChars cs

/-- A quoted TOML basic string. -/
def dumpStr (s : String) : List Char := '"' :: (escapeStrChars s.data ++ ['"'])

/-- `str(int)`. -/
def intChars (n : Int) : List Char :=
  if n < 0 then '-' :: natChars n.natAbs else natChars n.toNat

/-- Is this value a table (python: a dict)? -/
def isTableVal : Toml → Bool
  | .table _ => true
  | _ => false

/-- A key as dumped: bare when it matches `[A-Za-z0-9_-]+`, else quoted. -/
def dumpKey (k : String) : List Char :=
  if (!k.data.isEmpty) && k.data.all isBareKeyChar then k.data else dumpStr k

/-- `TomlEncoder.dump_value` for non-dict values.  (`dump_value` applied
to a dict falls back to `dump_list` over its keys — a quirk of the
library that never fires in `toml.dumps`, where dict values and arrays
of dicts take the section paths instead; modelled faithfully.) -/
def dumpValueF : Nat → Toml → List Char
  | 0, _ => []
  | _ + 1, .str s => dumpStr s
  | _ + 1, .int n => intChars n
  | _ + 1, .bool b => if b then ['t','r','u','e'] else ['f','a','l','s','e']
  | fuel + 1, .arr xs =>
    '[' :: (xs.foldr (fun x acc => ' ' :: (dumpValueF fuel x ++ ',' :: acc)) [']'])
  | _ + 1, .table kvs =>
    '[' :: (kvs.foldr (fun kv acc => ' ' :: (dumpStr kv.1 ++ ',' :: acc)) [']'])

/-- The full section name for key `k` under (already rendered) name
`sup`: `k` at top level, else `sup.k`. -/
def subName (sup : List Char) (k : String) : List Char :=
  if sup = [] then dumpKey k else sup ++ '.' :: dumpKey k

/-- `TomlEncoder.dump_sections`: returns the rendered non-dict entries
(scalar `key = value` lines, then `[[name]]` arrays-of-tables) and the
dict-valued entries with their full names.  With `flat = true` (used for
array-of-tables element bodies) sub-tables are rendered inline after the
scalars instead of being returned. -/
def dumpSections : Nat → Bool → List Char → List (String × Toml) →
    List Char × List (List Char × List (String × Toml))
  | 0, _, _, _ => ([], [])
  | fuel + 1, flat, sup, kvs =>
    let step := fun (acc : List Char × List Char × List (List Char × List (String × Toml)))
        (kv : String × Toml) =>
      let (scal, aot, subs) := acc
      match kv with
      | (k, .table sub) => (scal, aot, subs ++ [(subName sup k, sub)])
      | (k, .arr xs) =>
        if xs.any isTableVal then
          let nm := subName sup k
          let elems := xs.foldl (fun t x =>
            match x with
            | .table ekvs =>
              t ++ '[' :: '[' :: nm ++ (']' :: ']' :: '\n' ::
                (dumpSections fuel true nm ekvs).1) ++ ['\n']
            | _ => t) ([] : List Char)
          (scal, aot ++ elems, subs)
        else
          (scal ++ dumpKey k ++ (' ' :: '=' :: ' ' ::
            (dumpValueF fuel (.arr xs) ++ ['\n'])), aot, subs)
      | (k, v) =>
        (scal ++ dumpKey k ++ (' ' :: '=' :: ' ' ::
          (dumpValueF fuel v ++ ['\n'])), aot, subs)
    let (scal, aot, subs) := kvs.foldl step ([], [], [])
    if flat then
      (scal ++ aot ++ subs.foldl (fun t nmsub =>
        t ++ '[' :: nmsub.1 ++ (']' :: '\n' ::
          (dumpSections fuel true nmsub.1 nmsub.2).1)) [], [])
    else (scal ++ aot, subs)

/-- Does the rendered output already end in a blank line? -/
def endsTwoNl (cs : List Char) : Bool :=
  match cs.reverse with
  | '\n' :: '\n' :: _ => true
  | _ => false

/-- The breadth-first section loop of `toml.dumps`: emit each pending
section (blank-line separated; header skipped when the table holds only
sub-tables), queueing its sub-tables. -/
def tomlDumpBFS (dsFuel : Nat) :
    Nat → List Char → List (List Char × List (String × Toml)) → List Char
  | 0, ret, _ => ret
  | _ + 1, ret, [] => ret
  | fuel + 1, ret, (nm, kvs) :: rest =>
    let p := dumpSections dsFuel false nm kvs
    let ret' :=
      if p.1 ≠ [] ∨ p.2.isEmpty then
        (if ret ≠ [] ∧ endsTwoNl ret = false then ret ++ ['\n'] else ret)
          ++ '[' :: nm ++ (']' :: '\n' :: p.1)
      else ret
    tomlDumpBFS dsFuel fuel ret' (rest ++ p.2)

mutual

/-- Number of nodes of a value (a recursion bound for the dumper). -/
def tomlSize : Toml → Nat
  | .str _ => 1
  | .int _ => 1
  | .bool _ => 1
  | .arr xs => 1 + tomlSizeList xs
  | .table kvs => 1 + tomlSizeKvs kvs

/-- Number of nodes of an array's elements. -/
def tomlSizeList : List Toml → Nat
  | [] => 0
  | x :: xs => tomlSize x + tomlSizeList xs

/-- Number of nodes of a table's entries. -/
def tomlSizeKvs : List (String × Toml) → Nat
  | [] => 0
  | kv :: rest => 1 + tomlSize kv.2 + tomlSizeKvs rest

end

/-- `toml.dump(data, f)` / `toml.dumps(data)`: the serialized document. -/
def tomlDump (root : List (String × Toml)) : String :=
  let fuel := tomlSizeKvs root + 1
  let p := dumpSections fuel false [] root
  ⟨tomlDumpBFS fuel fuel p.1 p.2⟩

/-! ## The release script itself (`scripts/prepare_nightly_release.py`)

File contents, the git branch and the tag state live in a `World`
record; each step of `main` is a function of the world.  Print
statements have no modelled effect.  `tag_commit` / `push_tag` are
`check_call` invocations modelled as succeeding (a failing git
subprocess would abort the process with `CalledProcessError`, which no
claim is about). -/

/-- `write_version_file`'s file content: the fixed two-line header
comment and the `__version__` assignment (f-string embedding
`str(version)`). -/
def version_file_content (version : PyVersion) : String :=
  "# this file will automatically be changed,\n" ++
  "# do not add anything but the version number here!\n" ++
  "__version__ = \"" ++ render_version version ++ "\"\n"

/-- Result of the three subscript assignments
`data["tool"]["poetry"][…] = …`: the new tree, or the python exception
they raise (`KeyError` for a missing key, `TypeError` for subscripting /
item-assigning a non-dict). -/
inductive UpdateResult where
  | ok (root : List (String × Toml))
  | keyErr
  | typeErr

/-- The mutation performed by `write_version_to_pyproject` on the parsed
data: set `tool.poetry.name` to `"rasa-nightly"`, `tool.poetry.version`
to `str(version)`, and `tool.poetry.packages` to `[{"include": "rasa"}]`. -/
def updatePyprojectData (root : List (String × Toml)) (version : PyVersion) :
    UpdateResult :=
  match lookupKey root "tool" with
  | none => .keyErr
  | some (.table t) =>
    match lookupKey t "poetry" with
    | none => .keyErr
    | some (.table p) =>
      let p1 := setKey p "name" (.str "rasa-nightly")
      let p2 := setKey p1 "version" (.str (render_version version))
      let p3 := setKey p2 "packages" (.arr [.table [("include", .str "rasa")]])
      .ok (setKey root "tool" (.table (setKey t "poetry" (.table p3))))
    | some _ => .typeErr
  | some _ => .typeErr

/-- Outcome of `write_version_to_pyproject`: the file rewritten with new
content, `sys.exit(1)` after a printed diagnostic (the two `except`
arms), or an uncaught `KeyError` escaping the function. -/
inductive ManifestOutcome where
  | written (newContent : String)
  | exitOne (msg : String)
  | keyError
deriving DecidableEq

/-- `write_version_to_pyproject(pyproject_file_path, version)` as a
function of the manifest file's state (`none` = file missing).
`toml.load` on a missing path raises `FileNotFoundError`, caught
together with `TypeError` by the first arm (message "file not found",
`sys.exit(1)`); an unparsable document raises `TomlDecodeError`, caught
by the second arm ("incorrect TOML", `sys.exit(1)`); a `KeyError` from
the subscript assignments is caught by neither arm.  On success the file
is overwritten with `toml.dump` of the mutated data. -/
def write_version_to_pyproject (file : Option String) (version : PyVersion) :
    ManifestOutcome :=
  match file with
  | none => .exitOne "file not found"
  | some content =>
    match tomlLoad content with
    | none => .exitOne "incorrect TOML"
    | some root =>
      match updatePyprojectData root version with
      | .ok root' => .written (tomlDump root')
      | .keyErr => .keyError
      | .typeErr => .exitOne "file not found"

/-- `git_current_branch()`: the stripped output of
`git symbolic-ref --short HEAD`, or `"main"` when the subprocess fails
(`CalledProcessError`, e.g. detached HEAD).  The argument is the
subprocess result: `some branch` on success, `none` on failure. -/
def git_current_branch (symbolicRef : Option String) : String :=
  match symbolicRef with
  | some branch => branch
  | none => "main"

/-- `git_current_branch_is_main()`: the current branch equals `"main"`
or the hard-coded `"ATO-114"`. -/
def git_current_branch_is_main (symbolicRef : Option String) : Bool :=
  let current_branch := git_current_branch symbolicRef
  current_branch == "main" || current_branch == "ATO-114"

/-- The mutable state `main` acts on: the two files (`none` = missing),
the git `symbolic-ref` result, and the repository's tag state. -/
structure World where
  versionFile : Option String
  pyprojectFile : Option String
  symbolicRef : Option String
  tags : List String
  pushedTags : List String
deriving DecidableEq

/-- How the process ends: `sys.exit(code)` (normal completion is
`exit 0`) or an uncaught exception (python aborts with a traceback). -/
inductive ProcResult where
  | exit (code : Nat)
  | exc (name : String)
deriving DecidableEq

/-- `write_version_file(path, version)`: full overwrite of the version
file, whatever it held before. -/
def write_version_file (w : World) (version : PyVersion) : World :=
  { w with versionFile := some (version_file_content version) }

/-- `main(args)`: resolve the version (`next_version` /
`parse_next_version`; an invalid string raises `InvalidVersion`,
uncaught), write the version file, rewrite the manifest, then check the
branch guard: off the allow-list print a warning and `sys.exit(1)`,
otherwise tag and push and finish normally (exit code 0). -/
def main (next_version : String) (w : World) : ProcResult × World :=
  match parse_next_version next_version with
  | none => (.exc "InvalidVersion", w)
  | some version =>
    let w1 := write_version_file w version
    match write_version_to_pyproject w1.pyprojectFile version with
    | .exitOne _ => (.exit 1, w1)
    | .keyError => (.exc "KeyError", w1)
    | .written newContent =>
      let w2 := { w1 with pyprojectFile := some newContent }
      if git_current_branch_is_main w2.symbolicRef then
        let tag := render_version version
        let w3 := { w2 with tags := w2.tags ++ [tag],
                            pushedTags := w2.pushedTags ++ [tag] }
        (.exit 0, w3)
      else
        (.exit 1, w2)

/-! ## Well-formedness of parsed versions

The invariants `Version.__init__` guarantees for its stored pieces:
a nonempty release, a canonical pre-release letter, and local segments
that are nonempty lower-case alphanumerics (alpha segments not all
digits, else they would have been parsed as numbers). -/

/-- Invariant of one stored local segment. -/
def segWF : LocalSeg → Prop
  | .num _ => True
  | .alpha cs =>
    cs ≠ [] ∧ (∀ c ∈ cs, isLocalChar c = true) ∧ ¬(cs.all isDigitChar = true)

/-- Invariants of a stored parsed version. -/
structure VersionWF (v : PyVersion) : Prop where
  relNe : v.release ≠ []
  preL : ∀ l n, v.pre = some (l, n) → l = ['a'] ∨ l = ['b'] ∨ l = ['r','c']
  localWF : ∀ s ∈ v.localSegs, segWF s

/-- Heads that stop a digit run. -/
def headNotDigit (X : List Char) : Prop :=
  ∀ c, X.head? = some c → isDigitChar c = false

/-- The characters `Version.__str__` can emit: `[a-z0-9]` plus the
punctuation `.`, `!`, `+`. -/
def isRenderChar (c : Char) : Bool :=
  isLocalChar c || c == '.' || c == '!' || c == '+'


/-- What may follow the release segment in a canonical rendering: no
digit at the head (the last release component is maximal), and after a
`.` no digit either (so the release loop stops). -/
def RelFollow (G : List Char) : Prop :=
  headNotDigit G ∧ ∀ y rest, G = '.' :: y :: rest → isDigitChar y = false

/-- A manifest whose only content besides the `tool.poetry` table is a
comment line: parsed data keeps no trace of the comment. -/
def exC2Content : String :=
  "# keep me\n[tool.poetry]\nname = \"rasa\"\nversion = \"2.4.0\"\n"

/-- The parsed tree of `exC2Content`. -/
def exC2Root : List (String × Toml) :=
  [("tool", Toml.table [("poetry",
    Toml.table [("name", Toml.str "rasa"), ("version", Toml.str "2.4.0")])])]

/-- The version `2.4.1.dev3` used in the concrete scenarios. -/
def exV : PyVersion := ⟨0, [2, 4, 1], none, none, some 3, []⟩

/-- `exC2Root` after the nightly rewrite. -/
def exC2RootNew : List (String × Toml) :=
  match updatePyprojectData exC2Root exV with
  | .ok r => r
  | _ => []

/-- The manifest content written back for `exC2Content`. -/
def exC2Out : String :=
  match write_version_to_pyproject (some exC2Content) exV with
  | .written c => c
  | _ => ""

/-- The lines of a document (split on `\n`). -/
def docLines (s : String) : List String :=
  (splitLines s.data).map fun l => ⟨l⟩

/-! ### Digit-string lemmas -/

theorem digitsToNatAux_append (acc : Nat) (xs : List Char) (c : Char) :
    digitsToNatAux (xs ++ [c]) acc = (digitsToNatAux xs acc) * 10 + charVal c := by
  induction xs generalizing acc with
  | nil => rfl
  | cons x xs ih =>
    simp only [List.cons_append, digitsToNatAux]
    exact ih _

theorem digitsToNat_append (xs : List Char) (c : Char) :
    digitsToNat (xs ++ [c]) = digitsToNat xs * 10 + charVal c := by
  simp [digitsToNat, digitsToNatAux_append]

theorem charVal_digitChar : ∀ d < 10, charVal (digitChar d) = d := by decide

theorem isDigitChar_digitChar : ∀ d < 10, isDigitChar (digitChar d) = true := by decide

theorem digitsToNat_natCharsAux :
    ∀ fuel n, n ≤ fuel → digitsToNat (natCharsAux fuel n) = n := by
  intro fuel
  induction fuel with
  | zero =>
    intro n hn
    interval_cases n
    simp [natCharsAux, digitsToNat, digitsToNatAux]
  | succ f ih =>
    intro n hn
    match n with
    | 0 => simp [natCharsAux, digitsToNat, digitsToNatAux]
    | m + 1 =>
      have hdiv : (m + 1) / 10 ≤ f := by
        have := Nat.div_lt_self (Nat.succ_pos m) (by norm_num : 1 < 10)
        omega
      rw [natCharsAux, digitsToNat_append, ih _ hdiv,
        charVal_digitChar _ (Nat.mod_lt _ (by norm_num))]
      omega

theorem digitsToNat_natChars (n : Nat) : digitsToNat (natChars n) = n := by
  by_cases h : n = 0
  · subst h; simp [natChars, digitsToNat, digitsToNatAux, charVal]
  · simp only [natChars, if_neg h]
    exact digitsToNat_natCharsAux n n le_rfl

theorem natCharsAux_all_digit :
    ∀ fuel n c, c ∈ natCharsAux fuel n → isDigitChar c = true := by
  intro fuel
  induction fuel with
  | zero => intro n c hc; simp [natCharsAux] at hc
  | succ f ih =>
    intro n c hc
    match n with
    | 0 => simp [natCharsAux] at hc
    | m + 1 =>
      rw [natCharsAux] at hc
      rcases List.mem_append.1 hc with h | h
      · exact ih _ _ h
      · rcases List.mem_singleton.1 h with rfl
        exact isDigitChar_digitChar _ (Nat.mod_lt _ (by norm_num))

theorem natChars_all_digit (n : Nat) : ∀ c ∈ natChars n, isDigitChar c = true := by
  intro c hc
  by_cases h : n = 0
  · subst h; simp [natChars] at hc; subst hc; decide
  · simp only [natChars, if_neg h] at hc
    exact natCharsAux_all_digit n n c hc

theorem natChars_ne_nil (n : Nat) : natChars n ≠ [] := by
  by_cases h : n = 0
  · subst h; simp [natChars]
  · simp only [natChars, if_neg h]
    match n, h with
    | m + 1, _ =>
      rw [natCharsAux]
      simp

/-! ## Shared lemmas about dictionary update -/

theorem lookupKey_setKey_self (kvs : List (String × Toml)) (k : String) (v : Toml) :
    lookupKey (setKey kvs k v) k = some v := by
  induction kvs with
  | nil => simp [setKey, lookupKey]
  | cons kv rest ih =>
    obtain ⟨k', v'⟩ := kv
    by_cases h : k' = k
    · simp [setKey, lookupKey, h]
    · simp [setKey, lookupKey, h, ih]

theorem lookupKey_setKey_other (kvs : List (String × Toml)) (k k' : String) (v : Toml)
    (h : k ≠ k') : lookupKey (setKey kvs k v) k' = lookupKey kvs k' := by
  induction kvs with
  | nil => simp [setKey, lookupKey, h]
  | cons kv rest ih =>
    obtain ⟨k0, v0⟩ := kv
    by_cases h0 : k0 = k
    · subst h0; simp [setKey, lookupKey, h]
    · simp [setKey, lookupKey, h0, ih]

/-- Whatever succeeds in `updatePyprojectData` only rewrites the
`"tool"` entry: every other top-level key keeps its parsed value. -/
theorem updatePyprojectData_frame (root root' : List (String × Toml)) (v : PyVersion)
    (h : updatePyprojectData root v = .ok root') :
    ∀ k, k ≠ "tool" → lookupKey root' k = lookupKey root k := by
  intro k hk
  unfold updatePyprojectData at h
  split at h
  · simp at h
  · split at h
    · simp at h
    · simp only [UpdateResult.ok.injEq] at h
      subst h
      exact lookupKey_setKey_other _ _ _ _ (fun hh => hk hh.symm)
    · simp at h
  · simp at h

/-! ## Claim theorems -/

/-- C1: `git_current_branch_is_main()` is true exactly for the two
allow-listed branch names `main` and `ATO-114`, and false for every
other name — in particular for `"main-2"`, which merely has an allowed
name as a prefix. -/
theorem C1_branch_guard_allowlist :
    (∀ b : String,
      git_current_branch_is_main (some b) = true ↔ (b = "main" ∨ b = "ATO-114"))
    ∧ git_current_branch_is_main (some "main-2") = false := by
  refine ⟨fun b => ?_, by decide⟩
  simp [git_current_branch_is_main, git_current_branch]

/-- C6: when `git symbolic-ref` fails (e.g. detached HEAD),
`git_current_branch()` returns `"main"` instead of propagating the
error, so the branch guard accepts that state. -/
theorem C6_detached_head_fallback :
    git_current_branch none = "main" ∧ git_current_branch_is_main none = true :=
  ⟨rfl, rfl⟩

/-- C4: on parsed data containing the `tool.poetry` tables, the rewrite
sets `tool.poetry.name` to `"rasa-nightly"`, `tool.poetry.version` to
`str(version)`, `tool.poetry.packages` to the fixed single-entry list,
and leaves every other top-level key unchanged. -/
theorem C4_manifest_rewrite_fields (root : List (String × Toml))
    (t p : List (String × Toml)) (v : PyVersion)
    (ht : lookupKey root "tool" = some (.table t))
    (hp : lookupKey t "poetry" = some (.table p)) :
    ∃ root' t' p',
      updatePyprojectData root v = .ok root' ∧
      lookupKey root' "tool" = some (.table t') ∧
      lookupKey t' "poetry" = some (.table p') ∧
      lookupKey p' "name" = some (.str "rasa-nightly") ∧
      lookupKey p' "version" = some (.str (render_version v)) ∧
      lookupKey p' "packages" = some (.arr [.table [("include", .str "rasa")]]) ∧
      (∀ k, k ≠ "tool" → lookupKey root' k = lookupKey root k) := by
  have hu : updatePyprojectData root v = .ok (setKey root "tool" (.table (setKey t "poetry"
      (.table (setKey (setKey (setKey p "name" (.str "rasa-nightly"))
        "version" (.str (render_version v)))
        "packages" (.arr [.table [("include", .str "rasa")]])))))) := by
    simp only [updatePyprojectData, ht, hp]
  refine ⟨_, _, _, hu, lookupKey_setKey_self .., lookupKey_setKey_self .., ?_, ?_,
    lookupKey_setKey_self .., ?_⟩
  · rw [lookupKey_setKey_other _ _ _ _ (by decide),
      lookupKey_setKey_other _ _ _ _ (by decide)]
    exact lookupKey_setKey_self ..
  · rw [lookupKey_setKey_other _ _ _ _ (by decide)]
    exact lookupKey_setKey_self ..
  · intro k hk
    exact lookupKey_setKey_other _ _ _ _ (fun hh => hk hh.symm)

/-- C4 witness: a concrete manifest tree with an unrelated top-level
key, on which the rewrite produces the three new field values and
leaves the unrelated key alone. -/
theorem C4_manifest_rewrite_fields_witness :
    lookupKey [("build-system", Toml.str "x"),
        ("tool", Toml.table [("poetry", Toml.table [("name", Toml.str "rasa")])])]
      "tool" = some (.table [("poetry", Toml.table [("name", Toml.str "rasa")])]) ∧
    ∃ root' t' p',
      updatePyprojectData [("build-system", Toml.str "x"),
          ("tool", Toml.table [("poetry", Toml.table [("name", Toml.str "rasa")])])]
        ⟨0, [1, 0], none, none, none, []⟩ = .ok root' ∧
      lookupKey root' "tool" = some (.table t') ∧
      lookupKey t' "poetry" = some (.table p') ∧
      lookupKey p' "name" = some (.str "rasa-nightly") ∧
      lookupKey p' "version" = some (.str (render_version ⟨0, [1, 0], none, none, none, []⟩)) ∧
      lookupKey p' "packages" = some (.arr [.table [("include", .str "rasa")]]) ∧
      (∀ k, k ≠ "tool" → lookupKey root' k =
        lookupKey [("build-system", Toml.str "x"),
          ("tool", Toml.table [("poetry", Toml.table [("name", Toml.str "rasa")])])] k) :=
  ⟨rfl, C4_manifest_rewrite_fields _ _ _ _ rfl rfl⟩

/-- C10: manifest parses but the parsed structure lacks the `"tool"`
key, or its `tool` table lacks the `"poetry"` key: the subscript
assignments raise `KeyError`, which the `except` arms (only
`FileNotFoundError`, `TypeError`, `TomlDecodeError`) do not catch, so
`main` aborts with the uncaught exception instead of the printed
diagnostic and `sys.exit(1)`. -/
theorem C10_missing_tables_keyerror (content : String) (root : List (String × Toml))
    (v : PyVersion) (hl : tomlLoad content = some root)
    (h : lookupKey root "tool" = none ∨
      ∃ t, lookupKey root "tool" = some (.table t) ∧ lookupKey t "poetry" = none) :
    write_version_to_pyproject (some content) v = .keyError ∧
    ∀ s w, parse_next_version s = some v → w.pyprojectFile = some content →
      main s w = (.exc "KeyError", write_version_file w v) := by
  have hkey : updatePyprojectData root v = .keyErr := by
    rcases h with h | ⟨t, ht, hp⟩
    · simp only [updatePyprojectData, h]
    · simp only [updatePyprojectData, ht, hp]
  have hw : write_version_to_pyproject (some content) v = .keyError := by
    simp only [write_version_to_pyproject, hl, hkey]
  refine ⟨hw, fun s w hs hwp => ?_⟩
  have hwp1 : (write_version_file w v).pyprojectFile = some content := hwp
  simp only [main, hs, hwp1, hw]

/-- C10 witness: a manifest with a `tool` table but no `poetry` table
inside it; the rewrite is a `KeyError` and `main` ends in the uncaught
exception, not in `exit 1`. -/
theorem C10_missing_tables_keyerror_witness :
    tomlLoad "[tool]\nx = 1\n" = some [("tool", Toml.table [("x", Toml.int 1)])] ∧
    (lookupKey [("tool", Toml.table [("x", Toml.int 1)])] "tool" = none ∨
      ∃ t, lookupKey [("tool", Toml.table [("x", Toml.int 1)])] "tool" = some (.table t) ∧
        lookupKey t "poetry" = none) ∧
    (write_version_to_pyproject (some "[tool]\nx = 1\n") ⟨0, [1, 0], none, none, none, []⟩ =
      .keyError ∧
    ∀ s w, parse_next_version s = some ⟨0, [1, 0], none, none, none, []⟩ →
      w.pyprojectFile = some "[tool]\nx = 1\n" →
      main s w = (.exc "KeyError",
        write_version_file w ⟨0, [1, 0], none, none, none, []⟩)) :=
  ⟨rfl, Or.inr ⟨_, rfl, rfl⟩,
    C10_missing_tables_keyerror _ _ _ rfl (Or.inr ⟨_, rfl, rfl⟩)⟩

/-- C9: a missing manifest file (`FileNotFoundError`) and an unparsable
manifest (`TomlDecodeError`) both take the diagnostic-then-`sys.exit(1)`
path, which `main` surfaces as exit code 1; when every step succeeds and
the branch guard accepts, `main` completes normally — exit code 0. -/
theorem C9_manifest_errors_exit1_success_exit0 :
    (∀ v, write_version_to_pyproject none v = .exitOne "file not found") ∧
    (∀ content v, tomlLoad content = none →
      write_version_to_pyproject (some content) v = .exitOne "incorrect TOML") ∧
    (∀ s v w msg, parse_next_version s = some v →
      write_version_to_pyproject w.pyprojectFile v = .exitOne msg →
      (main s w).1 = .exit 1) ∧
    (∀ s v w c, parse_next_version s = some v →
      write_version_to_pyproject w.pyprojectFile v = .written c →
      git_current_branch_is_main w.symbolicRef = true →
      (main s w).1 = .exit 0) := by
  refine ⟨fun v => rfl, fun content v h => ?_, fun s v w msg hs hm => ?_,
    fun s v w c hs hm hb => ?_⟩
  · simp only [write_version_to_pyproject, h]
  · have h1 : (write_version_file w v).pyprojectFile = w.pyprojectFile := rfl
    simp only [main, hs, h1, hm]
  · have h1 : (write_version_file w v).pyprojectFile = w.pyprojectFile := rfl
    simp only [main, hs, h1, hm, write_version_file, hb, if_true]

/-- C9 witness: the three concrete scenarios — missing file, invalid
TOML, and a clean run on `main` — with the stated outcomes. -/
theorem C9_manifest_errors_exit1_success_exit0_witness :
    (write_version_to_pyproject none ⟨0, [1, 0], none, none, none, []⟩ =
      .exitOne "file not found") ∧
    (tomlLoad "not = = toml [" = none) ∧
    (write_version_to_pyproject (some "not = = toml [") ⟨0, [1, 0], none, none, none, []⟩ =
      .exitOne "incorrect TOML") ∧
    (main "1.0" ⟨none, none, some "main", [], []⟩).1 = .exit 1 ∧
    (main "1.0" ⟨none, some "[tool.poetry]\nname = \"rasa\"\n", some "main", [], []⟩).1 =
      .exit 0 := by
  refine ⟨C9_manifest_errors_exit1_success_exit0.1 _,
    rfl,
    C9_manifest_errors_exit1_success_exit0.2.1 _ _ rfl,
    C9_manifest_errors_exit1_success_exit0.2.2.1 "1.0" ⟨0, [1, 0], none, none, none, []⟩
      ⟨none, none, some "main", [], []⟩ "file not found" (by decide) rfl,
    C9_manifest_errors_exit1_success_exit0.2.2.2 "1.0" ⟨0, [1, 0], none, none, none, []⟩
      ⟨none, some "[tool.poetry]\nname = \"rasa\"\n", some "main", [], []⟩ _ (by decide) rfl rfl⟩

/-- C3: with a valid version but a branch outside the allow-list, the
version file and the manifest are still rewritten (the side effects are
kept, not rolled back), the process exits with code 1, and no tag is
created and nothing is pushed. -/
theorem C3_offbranch_exit1_files_kept (s : String) (v : PyVersion) (w : World)
    (b c : String)
    (hv : parse_next_version s = some v)
    (hb : w.symbolicRef = some b)
    (hb1 : b ≠ "main") (hb2 : b ≠ "ATO-114")
    (hm : write_version_to_pyproject w.pyprojectFile v = .written c) :
    (main s w).1 = .exit 1 ∧
    (main s w).2.versionFile = some (version_file_content v) ∧
    (main s w).2.pyprojectFile = some c ∧
    (main s w).2.tags = w.tags ∧
    (main s w).2.pushedTags = w.pushedTags := by
  have hguard : git_current_branch_is_main w.symbolicRef = false := by
    rw [hb]
    simp [git_current_branch_is_main, git_current_branch, hb1, hb2]
  have h1 : (write_version_file w v).pyprojectFile = w.pyprojectFile := rfl
  have hmain : main s w = (.exit 1,
      { w with versionFile := some (version_file_content v), pyprojectFile := some c }) := by
    simp only [main, hv, h1, hm, write_version_file, hguard, Bool.false_eq_true, if_false]
  rw [hmain]
  exact ⟨rfl, rfl, rfl, rfl, rfl⟩

/-- C3 witness: the end-to-end scenario on branch `feature/x` with
version `2.4.1.dev3` and a clean manifest. -/
theorem C3_offbranch_exit1_files_kept_witness :
    parse_next_version "2.4.1.dev3" = some ⟨0, [2, 4, 1], none, none, some 3, []⟩ ∧
    (main "2.4.1.dev3"
        ⟨none, some "[tool.poetry]\nname = \"rasa\"\n", some "feature/x", [], []⟩).1 =
      .exit 1 ∧
    (main "2.4.1.dev3"
        ⟨none, some "[tool.poetry]\nname = \"rasa\"\n", some "feature/x", [], []⟩).2.tags =
      [] := by
  refine ⟨by decide, ?_, ?_⟩
  · exact (C3_offbranch_exit1_files_kept "2.4.1.dev3" ⟨0, [2, 4, 1], none, none, some 3, []⟩
      ⟨none, some "[tool.poetry]\nname = \"rasa\"\n", some "feature/x", [], []⟩
      "feature/x" _ (by decide) rfl (by decide) (by decide) rfl).1
  · exact (C3_offbranch_exit1_files_kept "2.4.1.dev3" ⟨0, [2, 4, 1], none, none, some 3, []⟩
      ⟨none, some "[tool.poetry]\nname = \"rasa\"\n", some "feature/x", [], []⟩
      "feature/x" _ (by decide) rfl (by decide) (by decide) rfl).2.2.2.1

/-- C5: on a string that is not a syntactically valid version,
`Version(version)` raises `InvalidVersion` before any file is touched:
`main` ends in the uncaught exception and the world — both files
included — is unchanged. -/
theorem C5_invalid_version_no_writes (s : String) (w : World)
    (h : parse_next_version s = none) :
    main s w = (.exc "InvalidVersion", w) := by
  simp only [main, h]

/-- C5 witness: `"not-a-version"` and the empty string are both
invalid, and `main` on `"not-a-version"` leaves the world untouched. -/
theorem C5_invalid_version_no_writes_witness :
    parse_next_version "not-a-version" = none ∧
    parse_next_version "" = none ∧
    main "not-a-version" ⟨some "old", some "oldproj", some "main", [], []⟩ =
      (.exc "InvalidVersion", ⟨some "old", some "oldproj", some "main", [], []⟩) :=
  ⟨by decide, by decide,
    C5_invalid_version_no_writes "not-a-version" _ (by decide)⟩


/-- C2 counterexample: the rewrite does *not* preserve all other
manifest content byte-for-byte.  On a well-formed manifest containing
the comment line `# keep me` — content untouched by the three field
mutations — the rewrite succeeds but the written file no longer contains
that line: `toml.load` discards comments and `toml.dump` re-serializes
only the parsed data. -/
theorem C2_counterexample_comment_dropped :
    write_version_to_pyproject (some exC2Content) exV = .written exC2Out ∧
    "# keep me" ∈ docLines exC2Content ∧
    "# keep me" ∉ docLines exC2Out := by
  exact ⟨rfl, by decide, by decide⟩

/-- C2 as amended: the rewrite changes only the three fields *of the
parsed data* — the file is re-serialized from the mutated data, and
every top-level key other than `tool` keeps its parsed value (but
formatting and comments of the original text are not preserved). -/
theorem C2_amended_parsed_preservation (content : String)
    (root root' : List (String × Toml)) (v : PyVersion)
    (hl : tomlLoad content = some root)
    (hu : updatePyprojectData root v = .ok root') :
    write_version_to_pyproject (some content) v = .written (tomlDump root') ∧
    ∀ k, k ≠ "tool" → lookupKey root' k = lookupKey root k :=
  ⟨by simp only [write_version_to_pyproject, hl, hu],
    updatePyprojectData_frame _ _ _ hu⟩

/-- C2 amended witness: the concrete manifest `exC2Content`. -/
theorem C2_amended_parsed_preservation_witness :
    tomlLoad exC2Content = some exC2Root ∧
    updatePyprojectData exC2Root exV = .ok exC2RootNew ∧
    (write_version_to_pyproject (some exC2Content) exV = .written (tomlDump exC2RootNew) ∧
      ∀ k, k ≠ "tool" → lookupKey exC2RootNew k = lookupKey exC2Root k) :=
  ⟨rfl, rfl, C2_amended_parsed_preservation _ _ _ _ rfl rfl⟩


theorem renderChar_ranges (c : Char) (h : isRenderChar c = true) :
    (48 ≤ c.toNat ∧ c.toNat ≤ 57) ∨ (97 ≤ c.toNat ∧ c.toNat ≤ 122) ∨
      c = '.' ∨ c = '!' ∨ c = '+' := by
  simp only [isRenderChar, isLocalChar, isDigitChar, isLowerAlpha,
    Bool.or_eq_true, Bool.and_eq_true, decide_eq_true_eq, beq_iff_eq] at h
  tauto

theorem render_lowerChar (c : Char) (h : isRenderChar c = true) : lowerChar c = c := by
  rcases renderChar_ranges c h with ⟨h1, h2⟩ | ⟨h1, h2⟩ | rfl | rfl | rfl
  · exact if_neg (by omega)
  · exact if_neg (by omega)
  · decide
  · decide
  · decide

theorem render_notSpace (c : Char) (h : isRenderChar c = true) : isPySpace c = false := by
  rcases renderChar_ranges c h with ⟨h1, h2⟩ | ⟨h1, h2⟩ | rfl | rfl | rfl
  · simp only [isPySpace, Bool.or_eq_false_iff, Bool.and_eq_false_iff]
    constructor
    · right
      simp only [decide_eq_false_iff_not]
      omega
    · simp only [beq_eq_false_iff_ne]
      omega
  · simp only [isPySpace, Bool.or_eq_false_iff, Bool.and_eq_false_iff]
    constructor
    · right
      simp only [decide_eq_false_iff_not]
      omega
    · simp only [beq_eq_false_iff_ne]
      omega
  · decide
  · decide
  · decide

theorem render_ne_nl (c : Char) (h : isRenderChar c = true) : c ≠ '\n' := by
  rcases renderChar_ranges c h with ⟨h1, h2⟩ | ⟨h1, h2⟩ | rfl | rfl | rfl
  · intro hc
    rw [hc] at h1
    simp at h1
  · intro hc
    rw [hc] at h1
    simp at h1
  · decide
  · decide
  · decide

theorem isLocalChar_render (c : Char) (h : isLocalChar c = true) :
    isRenderChar c = true := by
  simp [isRenderChar, h]

theorem isDigitChar_local (c : Char) (h : isDigitChar c = true) :
    isLocalChar c = true := by
  simp [isLocalChar, h]

theorem digit_beq_false (d c : Char) (hd : isDigitChar d = true)
    (hc : isDigitChar c = false) : (d == c) = false := by
  rw [beq_eq_false_iff_ne]
  rintro rfl
  rw [hd] at hc
  simp at hc

theorem digit_not_sep (d : Char) (hd : isDigitChar d = true) : isSepChar d = false := by
  simp only [isSepChar,
    digit_beq_false d '-' hd (by decide),
    digit_beq_false d '_' hd (by decide),
    digit_beq_false d '.' hd (by decide), Bool.or_self]

/-! ### Digit / local runs against an append -/

theorem takeDigits_append (ds X : List Char) (h1 : ∀ c ∈ ds, isDigitChar c = true)
    (h2 : headNotDigit X) : takeDigits (ds ++ X) = (ds, X) := by
  induction ds with
  | nil =>
    cases X with
    | nil => rfl
    | cons x xs => simp [takeDigits, h2 x rfl]
  | cons d ds ih =>
    have hd := h1 d (List.mem_cons_self ..)
    simp [takeDigits, hd, ih (fun c hc => h1 c (List.mem_cons_of_mem _ hc))]

theorem takeLoc_append (ds X : List Char) (h1 : ∀ c ∈ ds, isLocalChar c = true)
    (h2 : ∀ c, X.head? = some c → isLocalChar c = false) :
    takeLoc (ds ++ X) = (ds, X) := by
  induction ds with
  | nil =>
    cases X with
    | nil => rfl
    | cons x xs => simp [takeLoc, h2 x rfl]
  | cons d ds ih =>
    have hd := h1 d (List.mem_cons_self ..)
    simp [takeLoc, hd, ih (fun c hc => h1 c (List.mem_cons_of_mem _ hc))]

theorem natChars_cons (n : Nat) :
    ∃ d ds, natChars n = d :: ds ∧ isDigitChar d = true ∧
      ∀ c ∈ ds, isDigitChar c = true := by
  rcases hn : natChars n with _ | ⟨d, ds⟩
  · exact absurd hn (natChars_ne_nil n)
  · refine ⟨d, ds, rfl, ?_, fun c hc => ?_⟩
    · exact natChars_all_digit n d (by rw [hn]; exact List.mem_cons_self ..)
    · exact natChars_all_digit n c (by rw [hn]; exact List.mem_cons_of_mem _ hc)

/-! ### The parser establishes the invariants -/

theorem canonPre_cases (kw : List Char) :
    canonPre kw = ['a'] ∨ canonPre kw = ['b'] ∨ canonPre kw = ['r','c'] := by
  unfold canonPre
  split_ifs <;> simp

theorem parsePre_shape (cs : List Char) (l : List Char) (n : Nat)
    (h : (parsePre cs).1 = some (l, n)) :
    l = ['a'] ∨ l = ['b'] ∨ l = ['r','c'] := by
  unfold parsePre at h
  rcases hm : matchKw preKeywords (dropSep1 cs) with _ | ⟨kw, rest⟩
  · simp only [hm] at h
    exact absurd h (by simp)
  · simp only [hm] at h
    rcases htd : takeDigits (dropSep1 rest) with ⟨ds, rest2⟩
    simp only [htd] at h
    cases ds with
    | nil =>
      simp only [Option.some.injEq, Prod.mk.injEq] at h
      exact h.1 ▸ canonPre_cases kw
    | cons a as =>
      simp only [Option.some.injEq, Prod.mk.injEq] at h
      exact h.1 ▸ canonPre_cases kw

theorem takeLoc_all (cs : List Char) : ∀ c ∈ (takeLoc cs).1, isLocalChar c = true := by
  induction cs with
  | nil => intro c hc; simp [takeLoc] at hc
  | cons x xs ih =>
    intro c hc
    by_cases hx : isLocalChar x = true
    · simp only [takeLoc, hx, if_true] at hc
      rcases List.mem_cons.1 hc with rfl | hc
      · exact hx
      · exact ih c hc
    · rw [Bool.not_eq_true] at hx
      simp [takeLoc, hx] at hc

theorem classifySeg_WF (ds : List Char) (h1 : ds ≠ [])
    (h2 : ∀ c ∈ ds, isLocalChar c = true) : segWF (classifySeg ds) := by
  unfold classifySeg
  by_cases hall : ds.all isDigitChar = true
  · rw [if_pos hall]; trivial
  · rw [if_neg hall]; exact ⟨h1, h2, hall⟩

theorem parseSegsMore_WF :
    ∀ fuel cs segs, parseSegsMore fuel cs = some segs → ∀ s ∈ segs, segWF s := by
  intro fuel
  induction fuel with
  | zero =>
    intro cs segs h s hs
    cases cs with
    | nil =>
      simp only [parseSegsMore, Option.some.injEq] at h
      subst h; simp at hs
    | cons c cs' => simp [parseSegsMore] at h
  | succ f ih =>
    intro cs segs h s hs
    cases cs with
    | nil =>
      simp only [parseSegsMore, Option.some.injEq] at h
      subst h; simp at hs
    | cons c cs' =>
      by_cases hc : isSepChar c = true
      · simp only [parseSegsMore, hc, if_true] at h
        rcases htl : takeLoc cs' with ⟨seg, rest2⟩
        simp only [htl] at h
        cases seg with
        | nil => simp at h
        | cons a as =>
          rw [Option.map_eq_some'] at h
          obtain ⟨segs', hsegs', rfl⟩ := h
          rcases List.mem_cons.1 hs with rfl | hmem
          · refine classifySeg_WF _ (by simp) (fun c hc => ?_)
            have := takeLoc_all cs'
            rw [htl] at this
            exact this c hc
          · exact ih rest2 segs' hsegs' s hmem
      · rw [Bool.not_eq_true] at hc
        simp [parseSegsMore, hc] at h

theorem parseSegs_WF (cs : List Char) (segs : List LocalSeg)
    (h : parseSegs cs = some segs) : ∀ s ∈ segs, segWF s := by
  intro s hs
  unfold parseSegs at h
  rcases htl : takeLoc cs with ⟨seg, rest⟩
  simp only [htl] at h
  cases seg with
  | nil => simp at h
  | cons a as =>
    rw [Option.map_eq_some'] at h
    obtain ⟨segs', hsegs', rfl⟩ := h
    rcases List.mem_cons.1 hs with rfl | hmem
    · refine classifySeg_WF _ (by simp) (fun c hc => ?_)
      have := takeLoc_all cs
      rw [htl] at this
      exact this c hc
    · exact parseSegsMore_WF _ _ _ hsegs' s hmem

theorem parseLocal_WF (cs : List Char) (segs : List LocalSeg)
    (h : parseLocal cs = some segs) : ∀ s ∈ segs, segWF s := by
  cases cs with
  | nil =>
    simp only [parseLocal, Option.some.injEq] at h
    subst h; simp
  | cons c rest =>
    by_cases hc : c == '+'
    · simp only [parseLocal, hc, if_true] at h
      exact parseSegs_WF _ _ h
    · rw [Bool.not_eq_true] at hc
      simp [parseLocal, hc] at h

theorem parseRelease_ne (cs : List Char) (rel : List Nat) (rest : List Char)
    (h : parseRelease cs = some (rel, rest)) : rel ≠ [] := by
  unfold parseRelease at h
  rcases htd : takeDigits cs with ⟨ds, r⟩
  simp only [htd] at h
  cases ds with
  | nil => simp at h
  | cons a as =>
    simp only [Option.some.injEq, Prod.mk.injEq] at h
    obtain ⟨h1, -⟩ := h
    rw [← h1]
    simp

theorem parse_wf (cs : List Char) (v : PyVersion)
    (h : parseVersionChars cs = some v) : VersionWF v := by
  unfold parseVersionChars at h
  rcases hr : parseRelease (parseEpoch (dropV cs)).2 with _ | ⟨rel, cs2⟩
  · simp only [hr] at h
    exact absurd h (by simp)
  · simp only [hr] at h
    rcases hl : parseLocal (parseDev (parsePost (parsePre cs2).2).2).2 with _ | segs
    · simp only [hl] at h
      exact absurd h (by simp)
    · simp only [hl, Option.some.injEq] at h
      subst h
      refine ⟨parseRelease_ne _ _ _ hr, ?_, ?_⟩
      · intro l n hpre
        exact parsePre_shape _ _ _ hpre
      · exact parseLocal_WF _ _ hl

/-! ### Everything `__str__` emits is a render character -/

theorem natChars_render (n : Nat) : ∀ c ∈ natChars n, isRenderChar c = true :=
  fun c hc => isLocalChar_render _ (isDigitChar_local _ (natChars_all_digit n c hc))

theorem dotsTail_render (rs : List Nat) : ∀ c ∈ dotsTail rs, isRenderChar c = true := by
  induction rs with
  | nil => simp [dotsTail]
  | cons r rs ih =>
    intro c hc
    simp only [dotsTail, List.mem_cons, List.mem_append] at hc
    rcases hc with (rfl | hc) | hc
    · decide
    · exact natChars_render r c hc
    · exact ih c hc

theorem renderRelease_render (rs : List Nat) :
    ∀ c ∈ renderRelease rs, isRenderChar c = true := by
  cases rs with
  | nil => simp [renderRelease]
  | cons r rs =>
    intro c hc
    rcases List.mem_append.1 hc with hc | hc
    · exact natChars_render r c hc
    · exact dotsTail_render rs c hc

theorem renderEpoch_render (e : Nat) : ∀ c ∈ renderEpoch e, isRenderChar c = true := by
  unfold renderEpoch
  split
  · simp
  · intro c hc
    rcases List.mem_append.1 hc with hc | hc
    · exact natChars_render e c hc
    · rcases List.mem_singleton.1 hc with rfl
      decide

theorem renderPre_render (pre : Option (List Char × Nat))
    (hl : ∀ l n, pre = some (l, n) → l = ['a'] ∨ l = ['b'] ∨ l = ['r','c']) :
    ∀ c ∈ renderPre pre, isRenderChar c = true := by
  cases pre with
  | none => simp [renderPre]
  | some ln =>
    obtain ⟨l, n⟩ := ln
    intro c hc
    rcases List.mem_append.1 hc with hc | hc
    · rcases hl l n rfl with rfl | rfl | rfl
      · rcases List.mem_singleton.1 hc with rfl; decide
      · rcases List.mem_singleton.1 hc with rfl; decide
      · rcases List.mem_cons.1 hc with rfl | hc
        · decide
        · rcases List.mem_singleton.1 hc with rfl; decide
    · exact natChars_render n c hc

theorem renderPost_render (post : Option Nat) :
    ∀ c ∈ renderPost post, isRenderChar c = true := by
  cases post with
  | none => simp [renderPost]
  | some n =>
    intro c hc
    simp only [renderPost, List.mem_cons] at hc
    rcases hc with rfl | rfl | rfl | rfl | rfl | hc
    · decide
    · decide
    · decide
    · decide
    · decide
    · exact natChars_render n c hc

theorem renderDev_render (dev : Option Nat) :
    ∀ c ∈ renderDev dev, isRenderChar c = true := by
  cases dev with
  | none => simp [renderDev]
  | some n =>
    intro c hc
    simp only [renderDev, List.mem_cons] at hc
    rcases hc with rfl | rfl | rfl | rfl | hc
    · decide
    · decide
    · decide
    · decide
    · exact natChars_render n c hc

theorem renderSeg_render (s : LocalSeg) (h : segWF s) :
    ∀ c ∈ renderSeg s, isRenderChar c = true := by
  cases s with
  | num n => exact natChars_render n
  | alpha cs => exact fun c hc => isLocalChar_render c (h.2.1 c hc)

theorem dotsSegTail_render (ss : List LocalSeg) (h : ∀ s ∈ ss, segWF s) :
    ∀ c ∈ dotsSegTail ss, isRenderChar c = true := by
  induction ss with
  | nil => simp [dotsSegTail]
  | cons s ss ih =>
    intro c hc
    simp only [dotsSegTail, List.mem_cons, List.mem_append] at hc
    rcases hc with (rfl | hc) | hc
    · decide
    · exact renderSeg_render s (h s (List.mem_cons_self ..)) c hc
    · exact ih (fun t ht => h t (List.mem_cons_of_mem _ ht)) c hc

theorem renderLocal_render (ss : List LocalSeg) (h : ∀ s ∈ ss, segWF s) :
    ∀ c ∈ renderLocal ss, isRenderChar c = true := by
  cases ss with
  | nil => simp [renderLocal]
  | cons s ss =>
    intro c hc
    simp only [renderLocal, List.mem_cons, List.mem_append] at hc
    rcases hc with rfl | hc | hc
    · decide
    · exact renderSeg_render s (h s (List.mem_cons_self ..)) c hc
    · exact dotsSegTail_render ss (fun t ht => h t (List.mem_cons_of_mem _ ht)) c hc

theorem renderChars_classes (v : PyVersion) (wf : VersionWF v) :
    ∀ c ∈ renderChars v, isRenderChar c = true := by
  intro c hc
  unfold renderChars at hc
  simp only [List.mem_append] at hc
  rcases hc with hc | hc | hc | hc | hc | hc
  · exact renderEpoch_render _ c hc
  · exact renderRelease_render _ c hc
  · exact renderPre_render _ wf.preL c hc
  · exact renderPost_render _ c hc
  · exact renderDev_render _ c hc
  · exact renderLocal_render _ wf.localWF c hc

/-! ### Canonical strings pass through `canonChars` unchanged -/

theorem dropWhile_all_false {p : Char → Bool} (l : List Char)
    (h : ∀ c ∈ l, p c = false) : l.dropWhile p = l := by
  cases l with
  | nil => rfl
  | cons x xs => simp [List.dropWhile_cons, h x (List.mem_cons_self ..)]

theorem map_id_of (l : List Char) (f : Char → Char) (h : ∀ c ∈ l, f c = c) :
    l.map f = l := by
  induction l with
  | nil => rfl
  | cons x xs ih =>
    simp only [List.map_cons, h x (List.mem_cons_self ..),
      ih (fun c hc => h c (List.mem_cons_of_mem _ hc))]

theorem canonChars_render (v : PyVersion) (wf : VersionWF v) :
    canonChars (render_version v) = renderChars v := by
  have hall : ∀ c ∈ renderChars v, isRenderChar c = true := renderChars_classes v wf
  unfold canonChars render_version
  rw [show (String.mk (renderChars v)).data = renderChars v from rfl]
  rw [dropWhile_all_false _ (fun c hc => render_notSpace c (hall c hc))]
  rw [dropWhile_all_false _ (fun c hc => render_notSpace c (hall c (List.mem_reverse.1 hc)))]
  rw [List.reverse_reverse]
  exact map_id_of _ _ (fun c hc => render_lowerChar c (hall c hc))

/-! ### Keyword matching on canonical inputs -/

theorem matchKw_pre_nil : matchKw preKeywords [] = none := rfl

theorem matchKw_pre_plus (rest : List Char) :
    matchKw preKeywords ('+' :: rest) = none := by
  simp [matchKw, stripKw, preKeywords]

theorem matchKw_pre_po (rest : List Char) :
    matchKw preKeywords ('p' :: 'o' :: rest) = none := by
  simp [matchKw, stripKw, preKeywords]

theorem matchKw_pre_d (rest : List Char) :
    matchKw preKeywords ('d' :: rest) = none := by
  simp [matchKw, stripKw, preKeywords]

theorem matchKw_pre_a (d : Char) (rest : List Char) (hd : isDigitChar d = true) :
    matchKw preKeywords ('a' :: d :: rest) = some (['a'], d :: rest) := by
  simp [matchKw, stripKw, preKeywords, digit_beq_false d 'l' hd (by decide)]

theorem matchKw_pre_b (d : Char) (rest : List Char) (hd : isDigitChar d = true) :
    matchKw preKeywords ('b' :: d :: rest) = some (['b'], d :: rest) := by
  simp [matchKw, stripKw, preKeywords, digit_beq_false d 'e' hd (by decide)]

theorem matchKw_pre_rc (rest : List Char) :
    matchKw preKeywords ('r' :: 'c' :: rest) = some (['r','c'], rest) := by
  simp [matchKw, stripKw, preKeywords]

theorem matchKw_post_nil : matchKw postKeywords [] = none := rfl

theorem matchKw_post_plus (rest : List Char) :
    matchKw postKeywords ('+' :: rest) = none := by
  simp [matchKw, stripKw, postKeywords]

theorem matchKw_post_d (rest : List Char) :
    matchKw postKeywords ('d' :: rest) = none := by
  simp [matchKw, stripKw, postKeywords]

theorem matchKw_post_post (rest : List Char) :
    matchKw postKeywords ('p' :: 'o' :: 's' :: 't' :: rest) =
      some (['p','o','s','t'], rest) := by
  simp [matchKw, stripKw, postKeywords]

theorem matchKw_dev_nil : matchKw [['d','e','v']] [] = none := rfl

theorem matchKw_dev_plus (rest : List Char) :
    matchKw [['d','e','v']] ('+' :: rest) = none := by
  simp [matchKw, stripKw]

theorem matchKw_dev_dev (rest : List Char) :
    matchKw [['d','e','v']] ('d' :: 'e' :: 'v' :: rest) = some (['d','e','v'], rest) := by
  simp [matchKw, stripKw]

/-! ### Separator skipping on canonical inputs -/

theorem dropSep1_nonsep (c : Char) (rest : List Char) (h : isSepChar c = false) :
    dropSep1 (c :: rest) = c :: rest := by
  simp [dropSep1, h]

theorem dropSep1_dot (rest : List Char) : dropSep1 ('.' :: rest) = rest := rfl

theorem dropSep1_digit (d : Char) (rest : List Char) (hd : isDigitChar d = true) :
    dropSep1 (d :: rest) = d :: rest :=
  dropSep1_nonsep d rest (digit_not_sep d hd)

theorem takeDigits_natChars (n : Nat) (X : List Char) (hX : headNotDigit X) :
    takeDigits (natChars n ++ X) = (natChars n, X) :=
  takeDigits_append _ _ (natChars_all_digit n) hX

/-! ### The pre-release stage on canonical inputs -/

theorem parsePre_nil : parsePre [] = (none, []) := rfl

theorem parsePre_plus (rest : List Char) :
    parsePre ('+' :: rest) = (none, '+' :: rest) := by
  simp only [parsePre, dropSep1_nonsep '+' rest (by decide), matchKw_pre_plus]

theorem parsePre_postR (rest : List Char) :
    parsePre ('.' :: 'p' :: 'o' :: 's' :: 't' :: rest) =
      (none, '.' :: 'p' :: 'o' :: 's' :: 't' :: rest) := by
  simp only [parsePre, dropSep1_dot, matchKw_pre_po]

theorem parsePre_devR (rest : List Char) :
    parsePre ('.' :: 'd' :: 'e' :: 'v' :: rest) =
      (none, '.' :: 'd' :: 'e' :: 'v' :: rest) := by
  simp only [parsePre, dropSep1_dot, matchKw_pre_d]

theorem parsePre_some (l : List Char) (n : Nat) (X : List Char)
    (hl : l = ['a'] ∨ l = ['b'] ∨ l = ['r','c']) (hX : headNotDigit X) :
    parsePre (l ++ (natChars n ++ X)) = (some (l, n), X) := by
  obtain ⟨d, ds, hnc, hd, hds⟩ := natChars_cons n
  have htd : takeDigits (d :: (ds ++ X)) = (d :: ds, X) := by
    have h := takeDigits_natChars n X hX
    rw [hnc] at h
    simpa using h
  have hdtn : digitsToNat (d :: ds) = n := by
    have h := digitsToNat_natChars n
    rw [hnc] at h
    exact h
  rcases hl with rfl | rfl | rfl
  · rw [hnc]
    show parsePre ('a' :: d :: (ds ++ X)) = (some (['a'], n), X)
    simp only [parsePre, dropSep1_nonsep 'a' _ (by decide),
      matchKw_pre_a d _ hd, dropSep1_digit d _ hd, htd, hdtn]
    rfl
  · rw [hnc]
    show parsePre ('b' :: d :: (ds ++ X)) = (some (['b'], n), X)
    simp only [parsePre, dropSep1_nonsep 'b' _ (by decide),
      matchKw_pre_b d _ hd, dropSep1_digit d _ hd, htd, hdtn]
    rfl
  · rw [hnc]
    show parsePre ('r' :: 'c' :: d :: (ds ++ X)) = (some (['r','c'], n), X)
    simp only [parsePre, dropSep1_nonsep 'r' _ (by decide),
      matchKw_pre_rc, dropSep1_digit d _ hd, htd, hdtn]
    rfl

/-! ### The post-release stage on canonical inputs -/

theorem parsePost_nil : parsePost [] = (none, []) := rfl

theorem parsePost_plus (rest : List Char) :
    parsePost ('+' :: rest) = (none, '+' :: rest) := by
  simp only [parsePost, parsePostKw, dropSep1_nonsep '+' rest (by decide),
    matchKw_post_plus]
  rfl

theorem parsePost_devR (rest : List Char) :
    parsePost ('.' :: 'd' :: 'e' :: 'v' :: rest) =
      (none, '.' :: 'd' :: 'e' :: 'v' :: rest) := by
  simp only [parsePost, parsePostKw, dropSep1_dot, matchKw_post_d]
  rfl

theorem parsePost_some (n : Nat) (X : List Char) (hX : headNotDigit X) :
    parsePost ('.' :: 'p' :: 'o' :: 's' :: 't' :: (natChars n ++ X)) =
      (some n, X) := by
  obtain ⟨d, ds, hnc, hd, hds⟩ := natChars_cons n
  have htd : takeDigits (d :: (ds ++ X)) = (d :: ds, X) := by
    have h := takeDigits_natChars n X hX
    rw [hnc] at h
    simpa using h
  have hdtn : digitsToNat (d :: ds) = n := by
    have h := digitsToNat_natChars n
    rw [hnc] at h
    exact h
  rw [hnc]
  show parsePost ('.' :: 'p' :: 'o' :: 's' :: 't' :: d :: (ds ++ X)) = (some n, X)
  simp only [parsePost, parsePostKw, dropSep1_dot,
    matchKw_post_post, dropSep1_digit d _ hd, htd, hdtn]
  rfl

/-! ### The dev-release stage on canonical inputs -/

theorem parseDev_nil : parseDev [] = (none, []) := rfl

theorem parseDev_plus (rest : List Char) :
    parseDev ('+' :: rest) = (none, '+' :: rest) := by
  simp only [parseDev, dropSep1_nonsep '+' rest (by decide), matchKw_dev_plus]

theorem parseDev_some (n : Nat) (X : List Char) (hX : headNotDigit X) :
    parseDev ('.' :: 'd' :: 'e' :: 'v' :: (natChars n ++ X)) = (some n, X) := by
  obtain ⟨d, ds, hnc, hd, hds⟩ := natChars_cons n
  have htd : takeDigits (d :: (ds ++ X)) = (d :: ds, X) := by
    have h := takeDigits_natChars n X hX
    rw [hnc] at h
    simpa using h
  have hdtn : digitsToNat (d :: ds) = n := by
    have h := digitsToNat_natChars n
    rw [hnc] at h
    exact h
  rw [hnc]
  show parseDev ('.' :: 'd' :: 'e' :: 'v' :: d :: (ds ++ X)) = (some n, X)
  simp only [parseDev, dropSep1_dot, matchKw_dev_dev,
    dropSep1_digit d _ hd, htd, hdtn]

/-! ### The release and epoch stages on canonical inputs -/


theorem relFollow_nil : RelFollow [] :=
  ⟨fun c h => by simp at h, fun y r h => by simp at h⟩

theorem relFollow_of_cons (c : Char) (rest : List Char) (hc : isDigitChar c = false)
    (hdot : c ≠ '.') : RelFollow (c :: rest) := by
  refine ⟨fun d hd => ?_, fun y r h => ?_⟩
  · rw [show d = c from by simpa using hd.symm]
    exact hc
  · exact absurd (List.cons.inj h).1 hdot

theorem relFollow_dot (y : Char) (rest : List Char) (hy : isDigitChar y = false) :
    RelFollow ('.' :: y :: rest) := by
  refine ⟨fun d hd => ?_, fun z r h => ?_⟩
  · rw [show d = '.' from by simpa using hd.symm]
    decide
  · obtain ⟨-, h2⟩ := List.cons.inj h
    rw [show z = y from ((List.cons.inj h2).1).symm]
    exact hy

theorem parseRelMore_stop : ∀ fuel G, RelFollow G → parseRelMore fuel G = ([], G) := by
  intro fuel G hG
  cases fuel with
  | zero => rfl
  | succ f =>
    cases G with
    | nil => rfl
    | cons c rest =>
      have hc := hG.1 c rfl
      by_cases hdot : c = '.'
      · subst hdot
        cases rest with
        | nil => simp [parseRelMore, takeDigits]
        | cons y rest' =>
          have hy := hG.2 y rest' rfl
          simp [parseRelMore, takeDigits, hy]
      · simp [parseRelMore, beq_eq_false_iff_ne.2 hdot]

theorem dotsTail_length (rs : List Nat) : rs.length ≤ (dotsTail rs).length := by
  induction rs with
  | nil => simp [dotsTail]
  | cons r rs ih =>
    simp only [dotsTail, List.length_cons, List.cons_append, List.length_append]
    omega

theorem headNotDigit_dotsTail_append (rs : List Nat) (G : List Char)
    (hG : RelFollow G) : headNotDigit (dotsTail rs ++ G) := by
  cases rs with
  | nil => exact hG.1
  | cons r rs =>
    intro c hc
    rw [show c = '.' from by simpa [dotsTail] using hc.symm]
    decide

theorem parseRelMore_render : ∀ rs fuel G, rs.length ≤ fuel → RelFollow G →
    parseRelMore fuel (dotsTail rs ++ G) = (rs, G) := by
  intro rs
  induction rs with
  | nil => exact fun fuel G _ hG => parseRelMore_stop fuel G hG
  | cons r rs ih =>
    intro fuel G hlen hG
    cases fuel with
    | zero => simp at hlen
    | succ f =>
      obtain ⟨d, ds, hnc, hd, hds⟩ := natChars_cons r
      have htd2 : takeDigits (d :: (ds ++ (dotsTail rs ++ G))) =
          (d :: ds, dotsTail rs ++ G) := by
        have h := takeDigits_natChars r _ (headNotDigit_dotsTail_append rs G hG)
        rw [hnc] at h
        simpa using h
      have hdtn : digitsToNat (d :: ds) = r := by
        have h := digitsToNat_natChars r
        rw [hnc] at h
        exact h
      have hih := ih f G (by simp at hlen; omega) hG
      simp only [dotsTail, List.cons_append, List.append_assoc]
      rw [hnc]
      simp only [List.cons_append]
      simp only [parseRelMore, htd2, hih, hdtn]
      rfl

theorem parseRelease_render (rel : List Nat) (G : List Char) (hne : rel ≠ [])
    (hG : RelFollow G) :
    parseRelease (renderRelease rel ++ G) = some (rel, G) := by
  cases rel with
  | nil => exact absurd rfl hne
  | cons r rs =>
    obtain ⟨d, ds, hnc, hd, hds⟩ := natChars_cons r
    have htd2 : takeDigits (d :: (ds ++ (dotsTail rs ++ G))) =
        (d :: ds, dotsTail rs ++ G) := by
      have h := takeDigits_natChars r _ (headNotDigit_dotsTail_append rs G hG)
      rw [hnc] at h
      simpa using h
    have hdtn : digitsToNat (d :: ds) = r := by
      have h := digitsToNat_natChars r
      rw [hnc] at h
      exact h
    have hlen : rs.length ≤ (dotsTail rs ++ G).length := by
      rw [List.length_append]
      have := dotsTail_length rs
      omega
    have hmore := parseRelMore_render rs (dotsTail rs ++ G).length G hlen hG
    simp only [renderRelease, List.append_assoc]
    rw [hnc]
    simp only [List.cons_append]
    simp only [parseRelease, htd2, hmore, hdtn]

theorem parseEpoch_bang (e : Nat) (Z : List Char) :
    parseEpoch (natChars e ++ '!' :: Z) = (e, Z) := by
  have htd : takeDigits (natChars e ++ '!' :: Z) = (natChars e, '!' :: Z) :=
    takeDigits_natChars e _ (fun c hc => by
      rw [show c = '!' from by simpa using hc.symm]; decide)
  obtain ⟨d, ds, hnc, hd, hds⟩ := natChars_cons e
  have hdtn : digitsToNat (d :: ds) = e := by
    have h := digitsToNat_natChars e
    rw [hnc] at h
    exact h
  rw [hnc] at htd ⊢
  simp only [List.cons_append] at htd ⊢
  simp only [parseEpoch, htd, hdtn]
  rfl

theorem parseEpoch_nobang (r : Nat) (Y : List Char) (hY : headNotDigit Y)
    (hbang : ∀ rest, Y ≠ '!' :: rest) :
    parseEpoch (natChars r ++ Y) = (0, natChars r ++ Y) := by
  have htd := takeDigits_natChars r Y hY
  obtain ⟨d, ds, hnc, hd, hds⟩ := natChars_cons r
  rw [hnc] at htd ⊢
  simp only [List.cons_append] at htd ⊢
  cases Y with
  | nil => simp only [parseEpoch, htd]
  | cons c r2 =>
    have hcne : (c == '!') = false := by
      rw [beq_eq_false_iff_ne]
      rintro rfl
      exact hbang r2 rfl
    simp only [parseEpoch, htd, hcne]
    simp

theorem dropV_digit (d : Char) (rest : List Char) (hd : isDigitChar d = true) :
    dropV (d :: rest) = d :: rest := by
  simp [dropV, digit_beq_false d 'v' hd (by decide)]

/-! ### The local-version stage on canonical inputs -/

theorem renderSeg_local (s : LocalSeg) (h : segWF s) :
    ∀ c ∈ renderSeg s, isLocalChar c = true := by
  cases s with
  | num n => exact fun c hc => isDigitChar_local c (natChars_all_digit n c hc)
  | alpha cs => exact h.2.1

theorem renderSeg_ne_nil (s : LocalSeg) (h : segWF s) : renderSeg s ≠ [] := by
  cases s with
  | num n => exact natChars_ne_nil n
  | alpha cs => exact h.1

theorem classifySeg_renderSeg (s : LocalSeg) (h : segWF s) :
    classifySeg (renderSeg s) = s := by
  cases s with
  | num n =>
    unfold classifySeg renderSeg
    rw [if_pos (List.all_eq_true.2 (natChars_all_digit n)), digitsToNat_natChars]
  | alpha cs =>
    unfold classifySeg renderSeg
    rw [if_neg h.2.2]

theorem headNotLocal_dotsSegTail (ss : List LocalSeg) :
    ∀ c, (dotsSegTail ss).head? = some c → isLocalChar c = false := by
  cases ss with
  | nil => intro c hc; simp [dotsSegTail] at hc
  | cons s ss =>
    intro c hc
    rw [show c = '.' from by simpa [dotsSegTail] using hc.symm]
    decide

theorem dotsSegTail_length (ss : List LocalSeg) :
    ss.length ≤ (dotsSegTail ss).length := by
  induction ss with
  | nil => simp [dotsSegTail]
  | cons s ss ih =>
    simp only [dotsSegTail, List.length_cons, List.cons_append, List.length_append]
    omega

theorem parseSegsMore_render : ∀ ss fuel, ss.length ≤ fuel → (∀ s ∈ ss, segWF s) →
    parseSegsMore fuel (dotsSegTail ss) = some ss := by
  intro ss
  induction ss with
  | nil =>
    intro fuel _ _
    cases fuel <;> rfl
  | cons s ss ih =>
    intro fuel hlen hwf
    cases fuel with
    | zero => simp at hlen
    | succ f =>
      have hsWF := hwf s (List.mem_cons_self ..)
      have htl : takeLoc (renderSeg s ++ dotsSegTail ss) = (renderSeg s, dotsSegTail ss) :=
        takeLoc_append _ _ (renderSeg_local s hsWF) (headNotLocal_dotsSegTail ss)
      have hih := ih f (by simp at hlen; omega)
        (fun t ht => hwf t (List.mem_cons_of_mem _ ht))
      have hcl := classifySeg_renderSeg s hsWF
      rcases hrs : renderSeg s with _ | ⟨a, as⟩
      · exact absurd hrs (renderSeg_ne_nil s hsWF)
      · rw [hrs] at htl hcl
        simp only [List.cons_append] at htl
        simp only [dotsSegTail, List.cons_append]
        rw [hrs]
        simp only [List.cons_append]
        simp only [parseSegsMore, htl, hih, hcl]
        simp [isSepChar]

theorem parseLocal_render (segs : List LocalSeg) (hwf : ∀ s ∈ segs, segWF s) :
    parseLocal (renderLocal segs) = some segs := by
  cases segs with
  | nil => rfl
  | cons s ss =>
    have hsWF := hwf s (List.mem_cons_self ..)
    have htl : takeLoc (renderSeg s ++ dotsSegTail ss) = (renderSeg s, dotsSegTail ss) :=
      takeLoc_append _ _ (renderSeg_local s hsWF) (headNotLocal_dotsSegTail ss)
    have hmore := parseSegsMore_render ss (dotsSegTail ss).length
      (dotsSegTail_length ss) (fun t ht => hwf t (List.mem_cons_of_mem _ ht))
    have hcl := classifySeg_renderSeg s hsWF
    rcases hrs : renderSeg s with _ | ⟨a, as⟩
    · exact absurd hrs (renderSeg_ne_nil s hsWF)
    · rw [hrs] at htl hcl
      simp only [List.cons_append] at htl
      simp only [renderLocal]
      rw [hrs]
      simp only [List.cons_append]
      simp only [parseLocal, parseSegs, htl, hmore, hcl]
      simp

/-! ### Heads of canonical suffixes -/

theorem headNotDigit_renderLocal (segs : List LocalSeg) :
    headNotDigit (renderLocal segs) := by
  cases segs with
  | nil => exact fun c hc => by simp [renderLocal] at hc
  | cons s ss =>
    intro c hc
    rw [show c = '+' from by simpa [renderLocal] using hc.symm]
    decide

theorem headNotDigit_devSuffix (dev : Option Nat) (segs : List LocalSeg) :
    headNotDigit (renderDev dev ++ renderLocal segs) := by
  cases dev with
  | none => exact fun c hc => headNotDigit_renderLocal segs c (by simpa [renderDev] using hc)
  | some n =>
    intro c hc
    rw [show c = '.' from by simpa [renderDev] using hc.symm]
    decide

theorem headNotDigit_postSuffix (post dev : Option Nat) (segs : List LocalSeg) :
    headNotDigit (renderPost post ++ (renderDev dev ++ renderLocal segs)) := by
  cases post with
  | none =>
    exact fun c hc => headNotDigit_devSuffix dev segs c (by simpa [renderPost] using hc)
  | some n =>
    intro c hc
    rw [show c = '.' from by simpa [renderPost] using hc.symm]
    decide

/-! ### The round trip: parsing a canonical rendering -/

theorem parse_render (v : PyVersion) (wf : VersionWF v) :
    parseVersionChars (renderChars v) = some v := by
  obtain ⟨e, rel, pre, post, dev, segs⟩ := v
  have wfrel : rel ≠ [] := wf.relNe
  have wfpre : ∀ l n, pre = some (l, n) → l = ['a'] ∨ l = ['b'] ∨ l = ['r','c'] :=
    wf.preL
  have wfloc : ∀ s ∈ segs, segWF s := wf.localWF
  -- the local stage
  have hL : parseLocal (renderLocal segs) = some segs := parseLocal_render segs wfloc
  -- the dev stage
  have hD : parseDev (renderDev dev ++ renderLocal segs) = (dev, renderLocal segs) := by
    cases dev with
    | none =>
      show parseDev (renderLocal segs) = (none, renderLocal segs)
      cases segs with
      | nil => exact parseDev_nil
      | cons s ss => exact parseDev_plus _
    | some n =>
      show parseDev ('.' :: 'd' :: 'e' :: 'v' :: (natChars n ++ renderLocal segs)) =
        (some n, renderLocal segs)
      exact parseDev_some n _ (headNotDigit_renderLocal segs)
  -- the post stage
  have hPO : parsePost (renderPost post ++ (renderDev dev ++ renderLocal segs)) =
      (post, renderDev dev ++ renderLocal segs) := by
    cases post with
    | none =>
      show parsePost (renderDev dev ++ renderLocal segs) =
        (none, renderDev dev ++ renderLocal segs)
      cases dev with
      | some n =>
        show parsePost ('.' :: 'd' :: 'e' :: 'v' :: (natChars n ++ renderLocal segs)) = _
        exact parsePost_devR _
      | none =>
        show parsePost (renderLocal segs) = (none, renderLocal segs)
        cases segs with
        | nil => exact parsePost_nil
        | cons s ss => exact parsePost_plus _
    | some n =>
      show parsePost ('.' :: 'p' :: 'o' :: 's' :: 't' ::
          (natChars n ++ (renderDev dev ++ renderLocal segs))) = _
      exact parsePost_some n _ (headNotDigit_devSuffix dev segs)
  -- the pre stage
  have hP : parsePre (renderPre pre ++ (renderPost post ++
      (renderDev dev ++ renderLocal segs))) =
      (pre, renderPost post ++ (renderDev dev ++ renderLocal segs)) := by
    cases pre with
    | some ln =>
      obtain ⟨l, n⟩ := ln
      show parsePre ((l ++ natChars n) ++ (renderPost post ++
        (renderDev dev ++ renderLocal segs))) = _
      rw [List.append_assoc]
      exact parsePre_some l n _ (wfpre l n rfl) (headNotDigit_postSuffix post dev segs)
    | none =>
      show parsePre (renderPost post ++ (renderDev dev ++ renderLocal segs)) = _
      cases post with
      | some n =>
        show parsePre ('.' :: 'p' :: 'o' :: 's' :: 't' ::
          (natChars n ++ (renderDev dev ++ renderLocal segs))) = _
        exact parsePre_postR _
      | none =>
        show parsePre (renderDev dev ++ renderLocal segs) = _
        cases dev with
        | some n =>
          show parsePre ('.' :: 'd' :: 'e' :: 'v' ::
            (natChars n ++ renderLocal segs)) = _
          exact parsePre_devR _
        | none =>
          show parsePre (renderLocal segs) = (none, renderLocal segs)
          cases segs with
          | nil => exact parsePre_nil
          | cons s ss => exact parsePre_plus _
  -- the canonical suffix after release satisfies `RelFollow` and never
  -- starts with `!`
  have hRelF : RelFollow (renderPre pre ++ (renderPost post ++
      (renderDev dev ++ renderLocal segs))) := by
    cases pre with
    | some ln =>
      obtain ⟨l, n⟩ := ln
      rcases wfpre l n rfl with rfl | rfl | rfl
      · exact relFollow_of_cons 'a' _ (by decide) (by decide)
      · exact relFollow_of_cons 'b' _ (by decide) (by decide)
      · exact relFollow_of_cons 'r' _ (by decide) (by decide)
    | none =>
      show RelFollow (renderPost post ++ (renderDev dev ++ renderLocal segs))
      cases post with
      | some n => exact relFollow_dot 'p' _ (by decide)
      | none =>
        show RelFollow (renderDev dev ++ renderLocal segs)
        cases dev with
        | some n => exact relFollow_dot 'd' _ (by decide)
        | none =>
          show RelFollow (renderLocal segs)
          cases segs with
          | nil => exact relFollow_nil
          | cons s ss => exact relFollow_of_cons '+' _ (by decide) (by decide)
  have hNoBang : ∀ rest, renderPre pre ++ (renderPost post ++
      (renderDev dev ++ renderLocal segs)) ≠ '!' :: rest := by
    cases pre with
    | some ln =>
      obtain ⟨l, n⟩ := ln
      rcases wfpre l n rfl with rfl | rfl | rfl <;>
        exact fun rest h => by cases (List.cons.inj h).1
    | none =>
      cases post with
      | some n => exact fun rest h => by cases (List.cons.inj h).1
      | none =>
        cases dev with
        | some n => exact fun rest h => by cases (List.cons.inj h).1
        | none =>
          cases segs with
          | nil => exact fun rest h => by cases h
          | cons s ss => exact fun rest h => by cases (List.cons.inj h).1
  -- the release stage
  have hRel : parseRelease (renderRelease rel ++ (renderPre pre ++
      (renderPost post ++ (renderDev dev ++ renderLocal segs)))) =
      some (rel, renderPre pre ++ (renderPost post ++
        (renderDev dev ++ renderLocal segs))) :=
    parseRelease_render rel _ wfrel hRelF
  -- the epoch stage
  have hE : parseEpoch (renderEpoch e ++ (renderRelease rel ++ (renderPre pre ++
      (renderPost post ++ (renderDev dev ++ renderLocal segs))))) =
      (e, renderRelease rel ++ (renderPre pre ++
        (renderPost post ++ (renderDev dev ++ renderLocal segs)))) := by
    by_cases he : e = 0
    · subst he
      cases rel with
      | nil => exact absurd rfl wfrel
      | cons r rs =>
        show parseEpoch ((natChars r ++ dotsTail rs) ++ (renderPre pre ++
            (renderPost post ++ (renderDev dev ++ renderLocal segs)))) =
          (0, (natChars r ++ dotsTail rs) ++ (renderPre pre ++
            (renderPost post ++ (renderDev dev ++ renderLocal segs))))
        rw [List.append_assoc]
        refine parseEpoch_nobang r _ (headNotDigit_dotsTail_append rs _ hRelF) ?_
        cases rs with
        | nil => exact hNoBang
        | cons r' rs' => exact fun rest h => by cases (List.cons.inj h).1
    · have hre : renderEpoch e = natChars e ++ ['!'] := by
        simp [renderEpoch, he]
      rw [hre, List.append_assoc]
      exact parseEpoch_bang e _
  -- the leading `v` is absent (the first character is a digit)
  have hV : dropV (renderEpoch e ++ (renderRelease rel ++ (renderPre pre ++
      (renderPost post ++ (renderDev dev ++ renderLocal segs))))) =
      renderEpoch e ++ (renderRelease rel ++ (renderPre pre ++
        (renderPost post ++ (renderDev dev ++ renderLocal segs)))) := by
    by_cases he : e = 0
    · subst he
      cases rel with
      | nil => exact absurd rfl wfrel
      | cons r rs =>
        obtain ⟨d, ds, hnc, hd, -⟩ := natChars_cons r
        show dropV ((natChars r ++ dotsTail rs) ++ _) = (natChars r ++ dotsTail rs) ++ _
        rw [hnc]
        simp only [List.cons_append]
        exact dropV_digit d _ hd
    · have hre : renderEpoch e = natChars e ++ ['!'] := by
        simp [renderEpoch, he]
      obtain ⟨d, ds, hnc, hd, -⟩ := natChars_cons e
      rw [hre, hnc]
      simp only [List.cons_append]
      exact dropV_digit d _ hd
  show parseVersionChars (renderEpoch e ++ (renderRelease rel ++ (renderPre pre ++
    (renderPost post ++ (renderDev dev ++ renderLocal segs))))) = _
  simp only [parseVersionChars, hV, hE, hRel, hP, hPO, hD, hL]

/-- Helper for the main parse function: its result always satisfies the
stored invariants. -/
theorem parse_next_version_wf (s : String) (v : PyVersion)
    (h : parse_next_version s = some v) : VersionWF v :=
  parse_wf _ _ h

/-! ### Splitting a document into lines -/

theorem splitLinesAux_no_nl (xs : List Char) (h : ∀ c ∈ xs, c ≠ '\n') :
    ∀ cs acc, splitLinesAux (xs ++ cs) acc = splitLinesAux cs (xs.reverse ++ acc) := by
  induction xs with
  | nil => intro cs acc; simp
  | cons x xs ih =>
    intro cs acc
    have hx : (x == '\n') = false :=
      beq_eq_false_iff_ne.2 (h x (List.mem_cons_self ..))
    simp only [List.cons_append, splitLinesAux, hx, Bool.false_eq_true, if_false,
      List.append_eq]
    rw [ih (fun c hc => h c (List.mem_cons_of_mem _ hc)) cs (x :: acc)]
    simp

theorem splitLinesAux_nl (cs : List Char) (acc : List Char) :
    splitLinesAux ('\n' :: cs) acc = acc.reverse :: splitLinesAux cs [] := by
  simp [splitLinesAux]

/-- The exact line decomposition of a three-line document with a final
newline: the three lines and the empty trailing chunk. -/
theorem docLines_three (l1 l2 l3 : List Char)
    (h1 : ∀ c ∈ l1, c ≠ '\n') (h2 : ∀ c ∈ l2, c ≠ '\n')
    (h3 : ∀ c ∈ l3, c ≠ '\n') :
    splitLines (l1 ++ '\n' :: (l2 ++ '\n' :: (l3 ++ ['\n']))) = [l1, l2, l3, []] := by
  unfold splitLines
  rw [splitLinesAux_no_nl l1 h1, splitLinesAux_nl]
  rw [splitLinesAux_no_nl l2 h2, splitLinesAux_nl]
  rw [splitLinesAux_no_nl l3 h3, splitLinesAux_nl]
  simp [splitLinesAux]

/-! ## C7 and C8 -/

/-- C8: for every syntactically valid version string, the string form of
the parsed result is its normalized equivalent under the version
grammar: it parses back to exactly the same stored version — in
particular `parse_next_version (str v)` and `parse_next_version s` agree. -/
theorem C8_version_string_roundtrip (s : String) (v : PyVersion)
    (h : parse_next_version s = some v) :
    parse_next_version (render_version v) = some v ∧
    parse_next_version (render_version v) = parse_next_version s := by
  have wf := parse_next_version_wf s v h
  have hmain : parse_next_version (render_version v) = some v := by
    unfold parse_next_version
    rw [canonChars_render v wf]
    exact parse_render v wf
  exact ⟨hmain, hmain.trans h.symm⟩

/-- C8 witness: `2.4.1.dev3` (already canonical) and `V2!1.03.RC-4+Ubuntu.01`
(normalized to `2!1.3rc4+ubuntu.1`) both round-trip. -/
theorem C8_version_string_roundtrip_witness :
    parse_next_version "2.4.1.dev3" = some exV ∧
    (parse_next_version (render_version exV) = some exV ∧
      parse_next_version (render_version exV) = parse_next_version "2.4.1.dev3") ∧
    parse_next_version "V2!1.03.RC-4+Ubuntu.01" =
      some ⟨2, [1, 3], some (['r','c'], 4), none, none,
        [.alpha ['u','b','u','n','t','u'], .num 1]⟩ ∧
    (parse_next_version (render_version ⟨2, [1, 3], some (['r','c'], 4), none, none,
        [.alpha ['u','b','u','n','t','u'], .num 1]⟩) =
      some ⟨2, [1, 3], some (['r','c'], 4), none, none,
        [.alpha ['u','b','u','n','t','u'], .num 1]⟩ ∧
      parse_next_version (render_version ⟨2, [1, 3], some (['r','c'], 4), none, none,
        [.alpha ['u','b','u','n','t','u'], .num 1]⟩) =
      parse_next_version "V2!1.03.RC-4+Ubuntu.01") :=
  ⟨by decide, C8_version_string_roundtrip _ _ (by decide),
   by decide, C8_version_string_roundtrip _ _ (by decide)⟩

/-- C7: the version file written for a valid version consists of
exactly the two fixed header comment lines and the final
`__version__ = "<v>"` line — nothing else (`str(v)` contains no newline,
so the document has exactly these three lines) — and the write is a full
overwrite regardless of the file's previous state. -/
theorem C7_version_file_exact (s : String) (v : PyVersion)
    (h : parse_next_version s = some v) :
    docLines (version_file_content v) =
      ["# this file will automatically be changed,",
       "# do not add anything but the version number here!",
       "__version__ = \"" ++ render_version v ++ "\"",
       ""] ∧
    ∀ w, (write_version_file w v).versionFile = some (version_file_content v) := by
  have wf := parse_next_version_wf s v h
  refine ⟨?_, fun w => rfl⟩
  have hdata : (version_file_content v).data =
      ("# this file will automatically be changed," : String).data ++ '\n' ::
        (("# do not add anything but the version number here!" : String).data ++ '\n' ::
          ((("__version__ = \"" : String).data ++ (renderChars v ++ ['"'])) ++ ['\n'])) := by
    simp only [version_file_content, render_version, String.data_append]
    simp [List.append_assoc]
  have hl3 : ∀ c ∈ ("__version__ = \"" : String).data ++ (renderChars v ++ ['"']),
      c ≠ '\n' := by
    intro c hc
    have hpre : ∀ c ∈ ("__version__ = \"" : String).data, c ≠ '\n' := by decide
    rcases List.mem_append.1 hc with hc | hc
    · exact hpre c hc
    · rcases List.mem_append.1 hc with hc | hc
      · exact render_ne_nl c (renderChars_classes v wf c hc)
      · rcases List.mem_singleton.1 hc with rfl
        decide
  unfold docLines
  rw [hdata, docLines_three _ _ _ (by decide) (by decide) hl3]
  simp only [List.map_cons, List.map_nil]
  refine congrArg₂ _ rfl (congrArg₂ _ rfl (congrArg₂ _ ?_ rfl))
  show String.mk (("__version__ = \"" : String).data ++ (renderChars v ++ ['"'])) =
    ("__version__ = \"" : String) ++ render_version v ++ ("\"" : String)
  apply String.ext
  simp [String.data_append, render_version]

/-- C7 witness: the file written for `2.4.1.dev3`. -/
theorem C7_version_file_exact_witness :
    parse_next_version "2.4.1.dev3" = some exV ∧
    docLines (version_file_content exV) =
      ["# this file will automatically be changed,",
       "# do not add anything but the version number here!",
       "__version__ = \"" ++ render_version exV ++ "\"",
       ""] ∧
    ∀ w, (write_version_file w exV).versionFile = some (version_file_content exV) := by
  refine ⟨by decide, ?_, ?_⟩
  · exact (C7_version_file_exact "2.4.1.dev3" exV (by decide)).1
  · exact (C7_version_file_exact "2.4.1.dev3" exV (by decide)).2

end Rasa
